import Mathlib

/-!
Verification development for a chained hash table (files
`HashMap Tutorial/hashMap.hpp` and `HashMap Tutorial/main.cpp`).

The table is embedded shallowly:

* `Entry` mirrors the C++ `Entry<K, V>` node: a cached hash code, a key and a
  value.  The intrusive `next` pointer is represented by the position of the
  entry inside a Lean `List` (one list per bucket chain).
* `HashMap` mirrors `HashMap<K, V>`: the bucket array becomes a
  `List (List (Entry K V))`, and the fields `capacity`, `count` and `maxCount`
  are natural numbers.  The C++ `float m_loadFactor` is modelled as the exact
  rational `lfNum / lfDen`; the C++ initialisation
  `m_maxCount(loadFactor * capacity)` (float multiply truncated to `size_t`)
  becomes the exact natural-number floor `lfNum * capacity / lfDen`.
* `std::hash<K>` becomes an explicit parameter `hash : K → Nat`, and C++
  `operator==` on keys becomes decidable equality.
* `Reallocate` reinserts old entries through `PlaceInBucket`, which may
  recursively trigger `Reallocate` again; in C++ this recursion is unbounded
  for degenerate load factors, so `place` takes a fuel argument and returns
  `none` when the nesting depth exceeds the fuel (modelling non-completion).
  All other operations are total.
-/

namespace HashTut

/-- Model of the C++ `Entry<K, V>` node: `m_hashCode`, `m_key`, `m_value`.
The constructor `Entry(key, value)` caches `hasher(key)` in `hashCode`. -/
structure Entry (K V : Type) where
  hashCode : Nat
  key : K
  value : V
deriving DecidableEq

/-- Model of the C++ `HashMap<K, V>` state: bucket array, `m_capacity`,
`m_count`, load factor (as the exact rational `lfNum / lfDen`) and
`m_maxCount`. -/
structure HashMap (K V : Type) where
  buckets : List (List (Entry K V))
  capacity : Nat
  count : Nat
  lfNum : Nat
  lfDen : Nat
  maxCount : Nat
deriving DecidableEq

variable {K V : Type} [DecidableEq K] (hash : K → Nat)

/-- Model of the C++ constructor `HashMap(initialCapacity, loadFactor)`:
all buckets empty, `count = 0`, `maxCount = floor(loadFactor * capacity)`. -/
def init (initialCapacity lfNum lfDen : Nat) : HashMap K V :=
  { buckets := List.replicate initialCapacity []
    capacity := initialCapacity
    count := 0
    lfNum := lfNum
    lfDen := lfDen
    maxCount := lfNum * initialCapacity / lfDen }

/-- Model of `HashMap::GetBucket`: `hasher(key) % m_capacity`. -/
def bucketIdx (m : HashMap K V) (key : K) : Nat :=
  hash key % m.capacity

/-- Chain walk of `HashMap::PlaceInBucket`: compare the cached hash code
first, then full key equality; on a match overwrite the value (`SetValue`)
and report `true`; otherwise append a fresh `Entry` at the end of the chain
and report `false`.  The `count`/`Reallocate` side effects of the C++ method
live in `place`. -/
def placeInBucket (key : K) (value : V) : List (Entry K V) → List (Entry K V) × Bool
  | [] => ([⟨hash key, key, value⟩], false)
  | e :: rest =>
    if e.hashCode = hash key ∧ e.key = key then
      ({ e with value := value } :: rest, true)
    else
      let r := placeInBucket key value rest
      (e :: r.1, r.2)

/-- Chain walk of `HashMap::GetFromBucket`: return the first entry whose
cached hash code equals `hasher(key)` and whose key equals `key`. -/
def getFromBucket (key : K) : List (Entry K V) → Option (Entry K V)
  | [] => none
  | e :: rest =>
    if e.hashCode = hash key ∧ e.key = key then some e
    else getFromBucket key rest

/-- Chain walk of `HashMap::RemoveFromBucket`: unlink the first matching
entry (predecessor's `next` is reattached to the removed node's `next`) and
report `true`; report `false` with the chain untouched when no entry
matches.  The `count` decrement lives in `remove`. -/
def removeFromBucket (key : K) : List (Entry K V) → List (Entry K V) × Bool
  | [] => ([], false)
  | e :: rest =>
    if e.hashCode = hash key ∧ e.key = key then (rest, true)
    else
      let r := removeFromBucket key rest
      (e :: r.1, r.2)

/-- Model of `GetFromBucket(GetBucket(key), key)`, the lookup path used by
`operator[]`. -/
def getEntry (m : HashMap K V) (key : K) : Option (Entry K V) :=
  getFromBucket hash key (m.buckets.getD (bucketIdx hash m key) [])

/-- Value-level lookup: the value of the entry found by `getEntry`. -/
def lookup (m : HashMap K V) (key : K) : Option V :=
  (getEntry hash m key).map Entry.value

/-- State of the table rebuilt by `HashMap::Reallocate` before the reinsert
loop runs: a fresh all-empty bucket array of double the capacity,
`m_maxCount = loadFactor * newCapacity`, `m_count = 0`. -/
def grown (m : HashMap K V) : HashMap K V :=
  { buckets := List.replicate (m.capacity * 2) []
    capacity := m.capacity * 2
    count := 0
    lfNum := m.lfNum
    lfDen := m.lfDen
    maxCount := m.lfNum * (m.capacity * 2) / m.lfDen }

/-- Inner loop of `HashMap::Reallocate`: reinsert every entry of one old
chain, in chain order, through the supplied `PlaceInBucket`-style step
(`pl` is `place` at the remaining fuel). -/
def reinsertChain (pl : HashMap K V → K → V → Option (HashMap K V × Bool)) :
    HashMap K V → List (Entry K V) → Option (HashMap K V)
  | m, [] => some m
  | m, e :: rest =>
    match pl m e.key e.value with
    | none => none
    | some p => reinsertChain pl p.1 rest

/-- Outer loop of `HashMap::Reallocate`: drain the old bucket array in slot
order. -/
def reinsertBuckets (pl : HashMap K V → K → V → Option (HashMap K V × Bool)) :
    HashMap K V → List (List (Entry K V)) → Option (HashMap K V)
  | m, [] => some m
  | m, c :: rest =>
    match reinsertChain pl m c with
    | none => none
    | some m' => reinsertBuckets pl m' rest

/-- Model of `HashMap::Reallocate`: swap in the doubled empty array (with
`capacity`, `maxCount` updated and `count` reset to 0), then reinsert every
old entry via the `PlaceInBucket` logic. -/
def reallocWith (pl : HashMap K V → K → V → Option (HashMap K V × Bool))
    (m : HashMap K V) : Option (HashMap K V) :=
  reinsertBuckets pl (grown m) m.buckets

/-- Model of `HashMap::Place` (= `PlaceInBucket(GetBucket(key), key, value)`
including its side effects): overwrite or append, increment `m_count` on
append, and run `Reallocate` synchronously when `m_count > m_maxCount`.
Because `Reallocate` reinserts through `PlaceInBucket` and may recursively
reallocate again, `fuel` bounds the reallocation nesting depth; `none`
models a run that would nest deeper than `fuel` (in C++, for load factors
with `maxCount = 0` this recursion can repeat). -/
def place : Nat → HashMap K V → K → V → Option (HashMap K V × Bool)
  | fuel, m, key, value =>
    let idx := bucketIdx hash m key
    let r := placeInBucket hash key value (m.buckets.getD idx [])
    if r.2 then
      some ({ m with buckets := m.buckets.set idx r.1 }, true)
    else
      let m1 : HashMap K V :=
        { m with buckets := m.buckets.set idx r.1, count := m.count + 1 }
      if m1.maxCount < m1.count then
        match fuel with
        | 0 => none
        | f + 1 =>
          match reallocWith (fun mm kk vv => place f mm kk vv) m1 with
          | none => none
          | some m2 => some (m2, false)
      else
        some (m1, false)

/-- Model of `HashMap::Remove` (= `RemoveFromBucket(GetBucket(key), key)`):
on a match the entry is unlinked and `m_count` decremented; otherwise the
chain is not written to and the table is returned unchanged. -/
def remove (m : HashMap K V) (key : K) : HashMap K V × Bool :=
  let idx := bucketIdx hash m key
  let r := removeFromBucket hash key (m.buckets.getD idx [])
  if r.2 then
    ({ m with buckets := m.buckets.set idx r.1, count := m.count - 1 }, true)
  else
    (m, false)

/-- Model of `HashMap::Clear`: every bucket slot is reset to empty and
`m_count` to 0; `m_capacity`, the load factor and `m_maxCount` are left
untouched. -/
def clear (m : HashMap K V) : HashMap K V :=
  { m with buckets := m.buckets.map (fun _ => ([] : List (Entry K V))), count := 0 }

/-- Model of `HashMap::operator[]`: look the key up; when absent, insert a
default-constructed value through `PlaceInBucket` (the `place` path) and
look it up again.  The final C++ `foundEntry->GetValue()` dereferences the
second lookup unconditionally, so a failed second lookup is modelled as
`none` (undefined behaviour); `none` also models a non-completing nested
reallocation. -/
def getOrInsert [Inhabited V] (fuel : Nat) (m : HashMap K V) (key : K) :
    Option (HashMap K V × V) :=
  match getEntry hash m key with
  | some e => some (m, e.value)
  | none =>
    match place hash fuel m key (default : V) with
    | none => none
    | some p =>
      match getEntry hash p.1 key with
      | some e => some (p.1, e.value)
      | none => none

/-- One public mutating call of the table, for whole-run statements. -/
inductive Op (K V : Type) where
  | place (key : K) (value : V)
  | remove (key : K)
  | clear

/-- Run a sequence of public calls, threading the table state; each `place`
gets `fuel` for its reallocation nesting. -/
def runOps (fuel : Nat) : HashMap K V → List (Op K V) → Option (HashMap K V)
  | m, [] => some m
  | m, Op.place k v :: rest =>
    match place hash fuel m k v with
    | none => none
    | some p => runOps fuel p.1 rest
  | m, Op.remove k :: rest => runOps fuel (remove hash m k).1 rest
  | m, Op.clear :: rest => runOps fuel (clear m) rest

/-- Specification-level list of live keys after a sequence of calls:
`place` appends the key when new, `remove` erases it, `clear` empties the
list.  Used only to compare the code's `count` against the spec's
description of it. -/
def specKeys : List K → List (Op K V) → List K
  | s, [] => s
  | s, Op.place k _ :: rest => specKeys (if k ∈ s then s else s ++ [k]) rest
  | s, Op.remove k :: rest => specKeys (s.erase k) rest
  | _s, Op.clear :: rest => specKeys [] rest

/-- Bounded scan loop shared by the `HashIterator` constructor and
`operator++`: starting at bucket `i`, step forward while the current bucket
is empty, stopping either at the head of the first non-empty bucket or,
once the index reaches `m_capacity`, at the null cursor.  `steps` is the
loop bound `capacity - i`, consumed one bucket per iteration. -/
def scanAux (buckets : List (List (Entry K V))) (capacity : Nat) :
    Nat → Nat → Nat × List (Entry K V)
  | i, 0 => (i, [])
  | i, s + 1 =>
    if capacity ≤ i then (i, [])
    else
      match buckets.getD i [] with
      | [] => scanAux buckets capacity (i + 1) s
      | c => (i, c)

/-- Scan for the first non-empty bucket at index `≥ i` (the while loop of
`HashIterator`). -/
def scanFrom (buckets : List (List (Entry K V))) (capacity : Nat) (i : Nat) :
    Nat × List (Entry K V) :=
  scanAux buckets capacity i (capacity - i)

/-- Model of the `HashIterator(buckets, capacity)` constructor: load bucket 0
unconditionally, then scan forward while the cursor is null.  The iterator
state is `(m_bucketIndex, chain suffix headed by m_currEntry)`; the empty
suffix is the null cursor (the `end()` sentinel). -/
def iterBegin (buckets : List (List (Entry K V))) (capacity : Nat) :
    Nat × List (Entry K V) :=
  match buckets.getD 0 [] with
  | [] => scanFrom buckets capacity 1
  | c => (0, c)

/-- Model of `HashIterator::operator++`: it first executes
`m_currEntry = m_currEntry->GetNext()`, which dereferences the current
entry, so on the null cursor the behaviour is undefined (`none`).
Otherwise the cursor moves to the next chain entry, or scans forward from
the next bucket index. -/
def iterNext (buckets : List (List (Entry K V))) (capacity : Nat) :
    Nat × List (Entry K V) → Option (Nat × List (Entry K V))
  | (_, []) => none
  | (i, _ :: rest) =>
    match rest with
    | [] => some (scanFrom buckets capacity (i + 1))
    | _ => some (i, rest)

/-- Entries visited by repeatedly advancing a cursor until it equals the
null `end()` sentinel, as the range-for loop of `main.cpp` does; `fuel`
bounds the number of dereferences. -/
def iterVisit (buckets : List (List (Entry K V))) (capacity : Nat) :
    Nat → Nat × List (Entry K V) → List (Entry K V)
  | 0, _ => []
  | _ + 1, (_, []) => []
  | f + 1, (i, e :: rest) =>
    match iterNext buckets capacity (i, e :: rest) with
    | none => [e]
    | some s => e :: iterVisit buckets capacity f s

/-- Well-formedness of a reachable table state: the bucket array has
`capacity` slots, the capacity and the load-factor denominator are
positive, every cached hash code is the hash of its key, every entry sits
in the bucket selected by `hashCode % capacity`, keys are pairwise
distinct, `count` is the number of live entries, and `maxCount` is
`floor(loadFactor * capacity)`. -/
structure WF (m : HashMap K V) : Prop where
  len : m.buckets.length = m.capacity
  capPos : 0 < m.capacity
  denPos : 0 < m.lfDen
  hashes : ∀ e ∈ m.buckets.flatten, e.hashCode = hash e.key
  placed : ∀ i, i < m.capacity → ∀ e ∈ m.buckets.getD i [], hash e.key % m.capacity = i
  keysND : (m.buckets.flatten.map Entry.key).Nodup
  cntEq : m.count = m.buckets.flatten.length
  maxEq : m.maxCount = m.lfNum * m.capacity / m.lfDen

/-- Everything `place` guarantees about a completed call: well-formedness is
preserved, the key now maps to the value, all other keys are untouched, the
boolean reports prior presence, `count` grows by one exactly on a fresh
key, capacity only ever doubles some number of times, and it stays fixed
unless the threshold fired. -/
structure PlaceOut (hash : K → Nat) (m m' : HashMap K V) (key : K) (value : V)
    (b : Bool) : Prop where
  wf : WF hash m'
  self : lookup hash m' key = some value
  frame : ∀ k', k' ≠ key → lookup hash m' k' = lookup hash m k'
  foundIff : b = true ↔ (lookup hash m key).isSome
  cnt : m'.count = if b then m.count else m.count + 1
  capGrow : ∃ j, m'.capacity = m.capacity * 2 ^ j
  num : m'.lfNum = m.lfNum
  den : m'.lfDen = m.lfDen
  stable : b = true → m'.capacity = m.capacity ∧ m'.maxCount = m.maxCount
  trig : b = false → m.maxCount < m.count + 1 →
    ∃ j, m'.capacity = m.capacity * 2 ^ (j + 1)
  notrig : b = false → m.count + 1 ≤ m.maxCount →
    m'.capacity = m.capacity ∧ m'.maxCount = m.maxCount

/-- Shorthand: every completed `place` call at fuel `f` on a well-formed
table meets its contract. -/
def PlaceSpecAt (hash : K → Nat) (f : Nat) : Prop :=
  ∀ (m : HashMap K V) (key : K) (value : V) (m' : HashMap K V) (b : Bool),
    WF hash m → place hash f m key value = some (m', b) →
    PlaceOut hash m m' key value b

/-- Everything `Reallocate` guarantees: content, count and load factor are
preserved, the table is again well-formed, and capacity has doubled at
least once. -/
structure ReallocOut (hash : K → Nat) (m m'' : HashMap K V) : Prop where
  wf : WF hash m''
  look : ∀ k, lookup hash m'' k = lookup hash m k
  cnt : m''.count = m.count
  cap : ∃ j, m''.capacity = m.capacity * 2 ^ (j + 1)
  num : m''.lfNum = m.lfNum
  den : m''.lfDen = m.lfDen

/-! ### List helpers -/

theorem getD_set_self {α : Type _} (l : List α) (i : Nat) (a d : α)
    (h : i < l.length) : (l.set i a).getD i d = a := by
  induction l generalizing i with
  | nil => simp at h
  | cons x xs ih =>
    cases i with
    | zero => rfl
    | succ n => simpa using ih n (by simpa using h)

theorem getD_set_ne {α : Type _} (l : List α) (i j : Nat) (a d : α)
    (h : i ≠ j) : (l.set i a).getD j d = l.getD j d := by
  induction l generalizing i j with
  | nil => simp
  | cons x xs ih =>
    cases i with
    | zero => cases j with
      | zero => exact absurd rfl h
      | succ n => simp
    | succ n => cases j with
      | zero => simp
      | succ p => simpa using ih n p (by omega)

theorem getD_replicate_nil {α : Type _} (n i : Nat) :
    (List.replicate n ([] : List α)).getD i [] = [] := by
  induction n generalizing i with
  | zero => simp
  | succ n ih =>
    cases i with
    | zero => rfl
    | succ p => simp only [List.replicate_succ, List.getD_cons_succ]; exact ih p

theorem flatten_decomp {α : Type _} (l : List (List α)) (i : Nat)
    (h : i < l.length) :
    l.flatten = (l.take i).flatten ++ l.getD i [] ++ (l.drop (i + 1)).flatten := by
  induction l generalizing i with
  | nil => simp at h
  | cons x xs ih =>
    cases i with
    | zero => simp
    | succ n =>
      have := ih n (by simpa using h)
      simp only [List.take_succ_cons, List.drop_succ_cons, List.flatten_cons,
        List.getD_cons_succ]
      rw [this]; simp

theorem flatten_set {α : Type _} (l : List (List α)) (i : Nat) (a : List α)
    (h : i < l.length) :
    (l.set i a).flatten = (l.take i).flatten ++ a ++ (l.drop (i + 1)).flatten := by
  induction l generalizing i with
  | nil => simp at h
  | cons x xs ih =>
    cases i with
    | zero => simp
    | succ n =>
      have := ih n (by simpa using h)
      simp only [List.set_cons_succ, List.take_succ_cons, List.drop_succ_cons,
        List.flatten_cons, this]
      simp

theorem mem_flatten_getD {α : Type _} (l : List (List α)) (x : α) :
    x ∈ l.flatten ↔ ∃ i, i < l.length ∧ x ∈ l.getD i [] := by
  induction l with
  | nil => simp
  | cons c cs ih =>
    simp only [List.flatten_cons, List.mem_append, ih]
    constructor
    · rintro (hx | ⟨i, hi, hx⟩)
      · exact ⟨0, by simp, hx⟩
      · exact ⟨i + 1, by simpa using hi, hx⟩
    · rintro ⟨i, hi, hx⟩
      cases i with
      | zero => exact Or.inl hx
      | succ n => exact Or.inr ⟨n, by simpa using hi, hx⟩

theorem nodup_insert_middle {α : Type _} (l1 l2 l3 : List α) (a : α)
    (hnd : (l1 ++ l2 ++ l3).Nodup) (ha : a ∉ l1 ++ l2 ++ l3) :
    (l1 ++ (l2 ++ [a]) ++ l3).Nodup := by
  have hperm : (l1 ++ (l2 ++ [a]) ++ l3).Perm (a :: (l1 ++ l2 ++ l3)) := by
    have h1 : l1 ++ (l2 ++ [a]) ++ l3 = (l1 ++ l2) ++ a :: l3 := by simp
    rw [h1]
    have hmid : List.Perm ((l1 ++ l2) ++ a :: l3) (a :: ((l1 ++ l2) ++ l3)) :=
      List.perm_middle
    simpa [List.append_assoc] using hmid
  exact hperm.nodup_iff.mpr (List.nodup_cons.mpr ⟨ha, hnd⟩)

/-! ### Chain-walk lemmas -/

theorem getFromBucket_placeInBucket_self (key : K) (value : V)
    (c : List (Entry K V)) :
    getFromBucket hash key (placeInBucket hash key value c).1 =
      some ⟨hash key, key, value⟩ := by
  induction c with
  | nil => simp [placeInBucket, getFromBucket]
  | cons e rest ih =>
    by_cases h : e.hashCode = hash key ∧ e.key = key
    · obtain ⟨h1, h2⟩ := h
      simp [placeInBucket, getFromBucket, h1, h2]
    · simp [placeInBucket, getFromBucket, h, ih]

theorem getFromBucket_placeInBucket_ne (key key' : K) (value : V)
    (c : List (Entry K V)) (hne : key' ≠ key) :
    getFromBucket hash key' (placeInBucket hash key value c).1 =
      getFromBucket hash key' c := by
  induction c with
  | nil =>
    have hk : ¬(hash key = hash key' ∧ key = key') := fun hc => hne hc.2.symm
    simp [placeInBucket, getFromBucket, hk]
  | cons e rest ih =>
    by_cases h : e.hashCode = hash key ∧ e.key = key
    · have hk : ¬(e.hashCode = hash key' ∧ e.key = key') := fun hc => hne (hc.2 ▸ h.2)
      simp only [placeInBucket, if_pos h, getFromBucket]
      rw [if_neg (by simpa using hk), if_neg hk]
    · by_cases h' : e.hashCode = hash key' ∧ e.key = key'
      · simp only [placeInBucket, if_neg h, getFromBucket]
        rw [if_pos h', if_pos h']
      · simp only [placeInBucket, if_neg h, getFromBucket]
        rw [if_neg h', if_neg h']
        exact ih

theorem placeInBucket_found_iff (key : K) (value : V) (c : List (Entry K V)) :
    (placeInBucket hash key value c).2 = true ↔
      (getFromBucket hash key c).isSome := by
  induction c with
  | nil => simp [placeInBucket, getFromBucket]
  | cons e rest ih =>
    by_cases h : e.hashCode = hash key ∧ e.key = key
    · simp [placeInBucket, getFromBucket, h]
    · simp [placeInBucket, getFromBucket, h, ih]

theorem placeInBucket_length_found (key : K) (value : V) (c : List (Entry K V))
    (h : (placeInBucket hash key value c).2 = true) :
    (placeInBucket hash key value c).1.length = c.length := by
  induction c with
  | nil => simp [placeInBucket] at h
  | cons e rest ih =>
    by_cases hm : e.hashCode = hash key ∧ e.key = key
    · simp [placeInBucket, hm]
    · simp only [placeInBucket, if_neg hm] at h ⊢
      simpa using ih h

theorem placeInBucket_length_new (key : K) (value : V) (c : List (Entry K V))
    (h : (placeInBucket hash key value c).2 = false) :
    (placeInBucket hash key value c).1.length = c.length + 1 := by
  induction c with
  | nil => simp [placeInBucket]
  | cons e rest ih =>
    by_cases hm : e.hashCode = hash key ∧ e.key = key
    · simp [placeInBucket, hm] at h
    · simp only [placeInBucket, if_neg hm] at h ⊢
      simpa using ih h

theorem placeInBucket_map_key_found (key : K) (value : V) (c : List (Entry K V))
    (h : (placeInBucket hash key value c).2 = true) :
    (placeInBucket hash key value c).1.map Entry.key = c.map Entry.key := by
  induction c with
  | nil => simp [placeInBucket] at h
  | cons e rest ih =>
    by_cases hm : e.hashCode = hash key ∧ e.key = key
    · simp [placeInBucket, hm]
    · simp only [placeInBucket, if_neg hm] at h ⊢
      simpa using ih h

theorem placeInBucket_map_key_new (key : K) (value : V) (c : List (Entry K V))
    (h : (placeInBucket hash key value c).2 = false) :
    (placeInBucket hash key value c).1.map Entry.key = c.map Entry.key ++ [key] := by
  induction c with
  | nil => simp [placeInBucket]
  | cons e rest ih =>
    by_cases hm : e.hashCode = hash key ∧ e.key = key
    · simp [placeInBucket, hm] at h
    · simp only [placeInBucket, if_neg hm] at h ⊢
      simpa using ih h

theorem placeInBucket_hashes (key : K) (value : V) (c : List (Entry K V))
    (hc : ∀ e ∈ c, e.hashCode = hash e.key) :
    ∀ e' ∈ (placeInBucket hash key value c).1, e'.hashCode = hash e'.key := by
  induction c with
  | nil =>
    intro e' he'
    simp [placeInBucket] at he'
    subst he'; rfl
  | cons e rest ih =>
    by_cases hm : e.hashCode = hash key ∧ e.key = key
    · intro e' he'
      simp only [placeInBucket, if_pos hm, List.mem_cons] at he'
      rcases he' with rfl | he'
      · simpa [hm.2] using hm.1
      · exact hc e' (List.mem_cons_of_mem _ he')
    · intro e' he'
      simp only [placeInBucket, if_neg hm, List.mem_cons] at he'
      rcases he' with rfl | he'
      · exact hc e' (List.mem_cons_self _ _)
      · exact ih (fun x hx => hc x (List.mem_cons_of_mem _ hx)) e' he'

theorem mem_placeInBucket (key : K) (value : V) (c : List (Entry K V)) :
    ∀ e' ∈ (placeInBucket hash key value c).1, e'.key = key ∨ e' ∈ c := by
  induction c with
  | nil =>
    intro e' he'
    simp [placeInBucket] at he'
    subst he'; exact Or.inl rfl
  | cons e rest ih =>
    by_cases hm : e.hashCode = hash key ∧ e.key = key
    · intro e' he'
      simp only [placeInBucket, if_pos hm, List.mem_cons] at he'
      rcases he' with rfl | he'
      · exact Or.inl hm.2
      · exact Or.inr (List.mem_cons_of_mem _ he')
    · intro e' he'
      simp only [placeInBucket, if_neg hm, List.mem_cons] at he'
      rcases he' with rfl | he'
      · exact Or.inr (List.mem_cons_self _ _)
      · rcases ih e' he' with h | h
        · exact Or.inl h
        · exact Or.inr (List.mem_cons_of_mem _ h)

theorem getFromBucket_eq_none (key : K) (c : List (Entry K V)) :
    getFromBucket hash key c = none ↔
      ∀ e ∈ c, ¬(e.hashCode = hash key ∧ e.key = key) := by
  induction c with
  | nil => simp [getFromBucket]
  | cons e rest ih =>
    by_cases hm : e.hashCode = hash key ∧ e.key = key
    · simp [getFromBucket, hm]
    · simp only [getFromBucket, if_neg hm, ih, List.mem_cons]
      constructor
      · rintro h x (rfl | hx)
        · exact hm
        · exact h x hx
      · intro h x hx
        exact h x (Or.inr hx)

theorem getFromBucket_mem (key : K) (c : List (Entry K V)) (e : Entry K V)
    (h : getFromBucket hash key c = some e) :
    e ∈ c ∧ e.hashCode = hash key ∧ e.key = key := by
  induction c with
  | nil => simp [getFromBucket] at h
  | cons e0 rest ih =>
    by_cases hm : e0.hashCode = hash key ∧ e0.key = key
    · simp only [getFromBucket, if_pos hm, Option.some_inj] at h
      subst h; exact ⟨List.mem_cons_self _ _, hm⟩
    · simp only [getFromBucket, if_neg hm] at h
      obtain ⟨h1, h2⟩ := ih h
      exact ⟨List.mem_cons_of_mem _ h1, h2⟩

theorem getFromBucket_of_mem (key : K) (c : List (Entry K V)) (e : Entry K V)
    (hc : ∀ x ∈ c, x.hashCode = hash x.key) (hnd : (c.map Entry.key).Nodup)
    (he : e ∈ c) (hk : e.key = key) : getFromBucket hash key c = some e := by
  induction c with
  | nil => simp at he
  | cons e0 rest ih =>
    have hnd' : e0.key ∉ rest.map Entry.key ∧ (rest.map Entry.key).Nodup := by
      simpa using hnd
    rcases List.mem_cons.mp he with heq | he'
    · subst heq
      have hcond : e.hashCode = hash key ∧ e.key = key :=
        ⟨hk ▸ hc e (List.mem_cons_self _ _), hk⟩
      simp [getFromBucket, hcond]
    · have hkey0 : ¬(e0.hashCode = hash key ∧ e0.key = key) := by
        rintro ⟨_, h0⟩
        have hmem : e0.key ∈ rest.map Entry.key := by
          rw [h0, ← hk]; exact List.mem_map_of_mem Entry.key he'
        exact hnd'.1 hmem
      simp only [getFromBucket, if_neg hkey0]
      exact ih (fun x hx => hc x (List.mem_cons_of_mem _ hx)) hnd'.2 he'

theorem key_not_mem_of_getFromBucket_none (key : K) (c : List (Entry K V))
    (hc : ∀ x ∈ c, x.hashCode = hash x.key)
    (h : getFromBucket hash key c = none) : key ∉ c.map Entry.key := by
  intro hmem
  obtain ⟨e, he, hk⟩ := List.mem_map.mp hmem
  exact (getFromBucket_eq_none hash key c).mp h e he ⟨hk ▸ hc e he, hk⟩

theorem removeFromBucket_found_iff (key : K) (c : List (Entry K V)) :
    (removeFromBucket hash key c).2 = true ↔
      (getFromBucket hash key c).isSome := by
  induction c with
  | nil => simp [removeFromBucket, getFromBucket]
  | cons e rest ih =>
    by_cases hm : e.hashCode = hash key ∧ e.key = key
    · simp [removeFromBucket, getFromBucket, hm]
    · simp [removeFromBucket, getFromBucket, hm, ih]

theorem removeFromBucket_sublist (key : K) (c : List (Entry K V)) :
    List.Sublist (removeFromBucket hash key c).1 c := by
  induction c with
  | nil => simp [removeFromBucket]
  | cons e rest ih =>
    by_cases hm : e.hashCode = hash key ∧ e.key = key
    · simp only [removeFromBucket, if_pos hm]; exact List.sublist_cons_self e rest
    · simpa [removeFromBucket, hm] using List.Sublist.cons₂ e ih

theorem removeFromBucket_length (key : K) (c : List (Entry K V))
    (h : (removeFromBucket hash key c).2 = true) :
    (removeFromBucket hash key c).1.length + 1 = c.length := by
  induction c with
  | nil => simp [removeFromBucket] at h
  | cons e rest ih =>
    by_cases hm : e.hashCode = hash key ∧ e.key = key
    · simp [removeFromBucket, hm]
    · simp only [removeFromBucket, if_neg hm] at h ⊢
      simpa using ih h

theorem getFromBucket_removeFromBucket_self (key : K) (c : List (Entry K V))
    (hnd : (c.map Entry.key).Nodup) :
    getFromBucket hash key (removeFromBucket hash key c).1 = none := by
  induction c with
  | nil => simp [removeFromBucket, getFromBucket]
  | cons e rest ih =>
    by_cases hm : e.hashCode = hash key ∧ e.key = key
    · simp only [removeFromBucket, if_pos hm]
      rw [getFromBucket_eq_none]
      rintro x hx ⟨_, hxk⟩
      have : e.key ∈ rest.map Entry.key :=
        hm.2 ▸ hxk ▸ List.mem_map_of_mem Entry.key hx
      exact (List.nodup_cons.mp (by simpa using hnd)).1 this
    · simp only [removeFromBucket, if_neg hm, getFromBucket]
      exact ih (List.nodup_cons.mp (by simpa using hnd)).2

theorem getFromBucket_removeFromBucket_ne (key key' : K) (c : List (Entry K V))
    (hne : key' ≠ key) :
    getFromBucket hash key' (removeFromBucket hash key c).1 =
      getFromBucket hash key' c := by
  induction c with
  | nil => simp [removeFromBucket]
  | cons e rest ih =>
    by_cases hm : e.hashCode = hash key ∧ e.key = key
    · have hk : ¬(e.hashCode = hash key' ∧ e.key = key') := fun hc => hne (hc.2 ▸ hm.2)
      simp only [removeFromBucket, if_pos hm, getFromBucket]
      rw [if_neg hk]
    · by_cases h' : e.hashCode = hash key' ∧ e.key = key'
      · simp only [removeFromBucket, if_neg hm, getFromBucket]
        rw [if_pos h', if_pos h']
      · simp only [removeFromBucket, if_neg hm, getFromBucket]
        rw [if_neg h', if_neg h']
        exact ih

/-! ### Map-level lemmas -/

theorem flatten_replicate_nil {α : Type _} (n : Nat) :
    (List.replicate n ([] : List α)).flatten = [] := by
  induction n with
  | zero => rfl
  | succ n ih => rw [List.replicate_succ, List.flatten_cons, List.nil_append]; exact ih

theorem lookup_init (c n d : Nat) (k : K) :
    lookup hash (init c n d : HashMap K V) k = none := by
  simp [lookup, getEntry, init, getD_replicate_nil, getFromBucket]

theorem wf_init (c n d : Nat) (hc : 0 < c) (hd : 0 < d) :
    WF hash (init c n d : HashMap K V) := by
  refine ⟨by simp [init], hc, hd, ?_, ?_, ?_, ?_, rfl⟩
  · intro e he
    rw [init, flatten_replicate_nil] at he
    simp at he
  · intro i _ e he
    rw [init, getD_replicate_nil] at he
    simp at he
  · rw [init, flatten_replicate_nil]
    simp
  · rw [init, flatten_replicate_nil]
    simp [init]

theorem lookup_grown (m : HashMap K V) (k : K) :
    lookup hash (grown m) k = none := by
  simp [lookup, getEntry, grown, getD_replicate_nil, getFromBucket]

theorem wf_grown (m : HashMap K V) (hwf : WF hash m) : WF hash (grown m) := by
  refine ⟨by simp [grown], by have := hwf.capPos; simp only [grown]; omega,
    hwf.denPos, ?_, ?_, ?_, ?_, rfl⟩
  · intro e he
    rw [grown] at he
    simp only at he
    rw [flatten_replicate_nil] at he
    simp at he
  · intro i _ e he
    rw [grown] at he
    simp only at he
    rw [getD_replicate_nil] at he
    simp at he
  · rw [grown]
    simp only
    rw [flatten_replicate_nil]
    simp
  · rw [grown]
    simp only
    rw [flatten_replicate_nil]
    simp

theorem mem_getD_flatten {α : Type _} (l : List (List α)) (i : Nat) (x : α)
    (hx : x ∈ l.getD i []) : x ∈ l.flatten := by
  by_cases h : i < l.length
  · exact (mem_flatten_getD l x).mpr ⟨i, h, hx⟩
  · rw [List.getD_eq_default _ _ (by omega)] at hx
    simp at hx

theorem chain_sublist_flatten {α : Type _} (l : List (List α)) (i : Nat)
    (h : i < l.length) : List.Sublist (l.getD i []) l.flatten := by
  rw [flatten_decomp l i h]
  exact (List.sublist_append_right _ _).trans (List.sublist_append_left _ _)

theorem chain_hashes (m : HashMap K V) (hwf : WF hash m) (i : Nat) :
    ∀ x ∈ m.buckets.getD i [], x.hashCode = hash x.key :=
  fun x hx => hwf.hashes x (mem_getD_flatten m.buckets i x hx)

theorem chain_key_nodup (m : HashMap K V) (hwf : WF hash m) (i : Nat)
    (h : i < m.buckets.length) :
    ((m.buckets.getD i []).map Entry.key).Nodup :=
  ((chain_sublist_flatten m.buckets i h).map Entry.key).nodup hwf.keysND

theorem getEntry_of_mem (m : HashMap K V) (hwf : WF hash m) (e : Entry K V)
    (he : e ∈ m.buckets.flatten) : getEntry hash m e.key = some e := by
  obtain ⟨i, hi, hci⟩ := (mem_flatten_getD m.buckets e).mp he
  have hilen : i < m.capacity := hwf.len ▸ hi
  have hidx : bucketIdx hash m e.key = i := hwf.placed i hilen e hci
  rw [getEntry, hidx]
  exact getFromBucket_of_mem hash e.key _ e (chain_hashes hash m hwf i)
    (chain_key_nodup hash m hwf i hi) hci rfl

theorem lookup_of_mem (m : HashMap K V) (hwf : WF hash m) (e : Entry K V)
    (he : e ∈ m.buckets.flatten) : lookup hash m e.key = some e.value := by
  rw [lookup, getEntry_of_mem hash m hwf e he]
  rfl

theorem lookup_isSome_iff_mem (m : HashMap K V) (hwf : WF hash m) (k : K) :
    (lookup hash m k).isSome ↔ k ∈ m.buckets.flatten.map Entry.key := by
  constructor
  · intro h
    rw [lookup] at h
    have h2 : (getEntry hash m k).isSome := by
      cases hg : getEntry hash m k with
      | none => rw [hg] at h; simp at h
      | some e => simp
    obtain ⟨e, he⟩ := Option.isSome_iff_exists.mp h2
    rw [getEntry] at he
    obtain ⟨hmem, _, hk⟩ := getFromBucket_mem hash k _ e he
    exact hk ▸ List.mem_map_of_mem Entry.key
      (mem_getD_flatten m.buckets (bucketIdx hash m k) e hmem)
  · intro h
    obtain ⟨e, he, hk⟩ := List.mem_map.mp h
    subst hk
    rw [lookup, getEntry_of_mem hash m hwf e he]
    rfl

theorem lookup_none_iff_not_mem (m : HashMap K V) (hwf : WF hash m) (k : K) :
    lookup hash m k = none ↔ k ∉ m.buckets.flatten.map Entry.key := by
  rw [← lookup_isSome_iff_mem hash m hwf k, ← Option.not_isSome_iff_eq_none]

/-! ### The two outcomes of `PlaceInBucket` at table level -/

theorem bucketIdx_lt (m : HashMap K V) (hwf : WF hash m) (key : K) :
    bucketIdx hash m key < m.buckets.length := by
  rw [hwf.len]; exact Nat.mod_lt _ hwf.capPos

theorem place_found_state (m : HashMap K V) (key : K) (value : V) (hwf : WF hash m)
    (hr : (placeInBucket hash key value (m.buckets.getD (bucketIdx hash m key) [])).2 = true)
    (m' : HashMap K V)
    (hm' : m' = { m with buckets := (m.buckets.set (bucketIdx hash m key)
      (placeInBucket hash key value (m.buckets.getD (bucketIdx hash m key) [])).1) }) :
    WF hash m' ∧ lookup hash m' key = some value ∧
      (∀ k', k' ≠ key → lookup hash m' k' = lookup hash m k') := by
  have hidxlen := bucketIdx_lt hash m hwf key
  have hold := flatten_decomp m.buckets (bucketIdx hash m key) hidxlen
  have hnew := flatten_set m.buckets (bucketIdx hash m key)
    (placeInBucket hash key value (m.buckets.getD (bucketIdx hash m key) [])).1 hidxlen
  obtain ⟨bs, cap, cnt, ln, ld, mx⟩ := m
  subst hm'
  simp only at hold hnew hidxlen hr ⊢
  refine ⟨⟨?_, hwf.capPos, hwf.denPos, ?_, ?_, ?_, ?_, hwf.maxEq⟩, ?_, ?_⟩
  · simpa using hwf.len
  · intro e he
    simp only at he
    rw [hnew] at he
    rcases List.mem_append.mp he with he1 | heD
    · rcases List.mem_append.mp he1 with heT | heC
      · refine hwf.hashes e ?_
        rw [hold]
        exact List.mem_append.mpr (Or.inl (List.mem_append.mpr (Or.inl heT)))
      · exact placeInBucket_hashes hash key value _
          (chain_hashes hash _ hwf (bucketIdx hash ⟨bs, cap, cnt, ln, ld, mx⟩ key)) e heC
    · refine hwf.hashes e ?_
      rw [hold]
      exact List.mem_append.mpr (Or.inr heD)
  · intro i hi e he
    simp only at he hi
    by_cases hie : i = bucketIdx hash ⟨bs, cap, cnt, ln, ld, mx⟩ key
    · subst hie
      rw [getD_set_self _ _ _ _ hidxlen] at he
      rcases mem_placeInBucket hash key value _ e he with hk | hmem
      · rw [hk]; rfl
      · exact hwf.placed _ hi e hmem
    · rw [getD_set_ne _ _ _ _ _ (fun hh => hie hh.symm)] at he
      exact hwf.placed i hi e he
  · simp only
    rw [hnew]
    have hmap := placeInBucket_map_key_found hash key value _ hr
    have hcast : ((bs.take (bucketIdx hash ⟨bs, cap, cnt, ln, ld, mx⟩ key)).flatten ++
        (placeInBucket hash key value
          (bs.getD (bucketIdx hash ⟨bs, cap, cnt, ln, ld, mx⟩ key) [])).1 ++
        (bs.drop (bucketIdx hash ⟨bs, cap, cnt, ln, ld, mx⟩ key + 1)).flatten).map Entry.key
        = bs.flatten.map Entry.key := by
      rw [hold]
      simp only [List.map_append, hmap]
    rw [hcast]
    exact hwf.keysND
  · simp only
    rw [hnew]
    have h1 := hwf.cntEq
    rw [hold] at h1
    simp only [List.length_append] at h1 ⊢
    rw [placeInBucket_length_found hash key value _ hr]
    omega
  · have hlt : hash key % cap < bs.length := by simpa [bucketIdx] using hidxlen
    simp only [lookup, getEntry, bucketIdx]
    rw [getD_set_self _ _ _ _ hlt]
    rw [getFromBucket_placeInBucket_self]
    rfl
  · intro k' hk'
    have hlt : hash key % cap < bs.length := by simpa [bucketIdx] using hidxlen
    simp only [lookup, getEntry, bucketIdx]
    by_cases hsame : hash k' % cap = hash key % cap
    · rw [hsame, getD_set_self _ _ _ _ hlt,
        getFromBucket_placeInBucket_ne hash key k' value _ hk']
    · rw [getD_set_ne _ _ _ _ _ (fun hh => hsame hh.symm)]

theorem place_new_state (m : HashMap K V) (key : K) (value : V) (hwf : WF hash m)
    (hnone : lookup hash m key = none)
    (bs1 : List (List (Entry K V)))
    (hbs1 : bs1 = m.buckets.set (bucketIdx hash m key)
      (placeInBucket hash key value (m.buckets.getD (bucketIdx hash m key) [])).1)
    (m1 : HashMap K V)
    (hm1 : m1 = { m with buckets := bs1, count := m.count + 1 }) :
    WF hash m1 ∧ lookup hash m1 key = some value ∧
      (∀ k', k' ≠ key → lookup hash m1 k' = lookup hash m k') := by
  have hidxlen := bucketIdx_lt hash m hwf key
  have hold := flatten_decomp m.buckets (bucketIdx hash m key) hidxlen
  have hnew := flatten_set m.buckets (bucketIdx hash m key)
    (placeInBucket hash key value (m.buckets.getD (bucketIdx hash m key) [])).1 hidxlen
  have hkeyfresh : key ∉ m.buckets.flatten.map Entry.key :=
    (lookup_none_iff_not_mem hash m hwf key).mp hnone
  have hrnew : (placeInBucket hash key value
      (m.buckets.getD (bucketIdx hash m key) [])).2 = false := by
    rw [lookup, getEntry] at hnone
    rcases hb : (placeInBucket hash key value
        (m.buckets.getD (bucketIdx hash m key) [])).2 with _ | _
    · rfl
    · exfalso
      have := (placeInBucket_found_iff hash key value _).mp hb
      rcases hg : getFromBucket hash key (m.buckets.getD (bucketIdx hash m key) [])
        with _ | e
      · rw [hg] at this; simp at this
      · rw [hg] at hnone; simp at hnone
  obtain ⟨bs, cap, cnt, ln, ld, mx⟩ := m
  subst hbs1
  subst hm1
  simp only at hold hnew hidxlen hrnew hkeyfresh ⊢
  refine ⟨⟨?_, hwf.capPos, hwf.denPos, ?_, ?_, ?_, ?_, hwf.maxEq⟩, ?_, ?_⟩
  · simpa using hwf.len
  · intro e he
    simp only at he
    rw [hnew] at he
    rcases List.mem_append.mp he with he1 | heD
    · rcases List.mem_append.mp he1 with heT | heC
      · refine hwf.hashes e ?_
        rw [hold]
        exact List.mem_append.mpr (Or.inl (List.mem_append.mpr (Or.inl heT)))
      · exact placeInBucket_hashes hash key value _
          (chain_hashes hash _ hwf (bucketIdx hash ⟨bs, cap, cnt, ln, ld, mx⟩ key)) e heC
    · refine hwf.hashes e ?_
      rw [hold]
      exact List.mem_append.mpr (Or.inr heD)
  · intro i hi e he
    simp only at he hi
    by_cases hie : i = bucketIdx hash ⟨bs, cap, cnt, ln, ld, mx⟩ key
    · subst hie
      rw [getD_set_self _ _ _ _ hidxlen] at he
      rcases mem_placeInBucket hash key value _ e he with hk | hmem
      · rw [hk]; rfl
      · exact hwf.placed _ hi e hmem
    · rw [getD_set_ne _ _ _ _ _ (fun hh => hie hh.symm)] at he
      exact hwf.placed i hi e he
  · simp only
    rw [hnew]
    have hmap := placeInBucket_map_key_new hash key value _ hrnew
    simp only [List.map_append, hmap]
    have hnd0 := hwf.keysND
    rw [hold] at hnd0 hkeyfresh
    simp only [List.map_append] at hnd0 hkeyfresh
    exact nodup_insert_middle _ _ _ key hnd0 hkeyfresh
  · simp only
    rw [hnew]
    have h1 := hwf.cntEq
    rw [hold] at h1
    simp only [List.length_append] at h1 ⊢
    rw [placeInBucket_length_new hash key value _ hrnew]
    omega
  · have hlt : hash key % cap < bs.length := by simpa [bucketIdx] using hidxlen
    simp only [lookup, getEntry, bucketIdx]
    rw [getD_set_self _ _ _ _ hlt]
    rw [getFromBucket_placeInBucket_self]
    rfl
  · intro k' hk'
    have hlt : hash key % cap < bs.length := by simpa [bucketIdx] using hidxlen
    simp only [lookup, getEntry, bucketIdx]
    by_cases hsame : hash k' % cap = hash key % cap
    · rw [hsame, getD_set_self _ _ _ _ hlt,
        getFromBucket_placeInBucket_ne hash key k' value _ hk']
    · rw [getD_set_ne _ _ _ _ _ (fun hh => hsame hh.symm)]

/-! ### Fuel-independent facts about `place` -/

theorem place_unfold (fuel : Nat) (m : HashMap K V) (key : K) (value : V) :
    place hash fuel m key value =
      (let idx := bucketIdx hash m key
       let r := placeInBucket hash key value (m.buckets.getD idx [])
       if r.2 then
         some ({ m with buckets := m.buckets.set idx r.1 }, true)
       else
         let m1 : HashMap K V := { m with buckets := m.buckets.set idx r.1, count := m.count + 1 }
         if m1.maxCount < m1.count then
           match fuel with
           | 0 => none
           | f + 1 =>
             match reallocWith (place hash f) m1 with
             | none => none
             | some m2 => some (m2, false)
         else
           some (m1, false)) := by
  cases fuel <;> rfl

theorem lookup_isSome_eq (m : HashMap K V) (key : K) :
    (lookup hash m key).isSome =
      (getFromBucket hash key (m.buckets.getD (bucketIdx hash m key) [])).isSome := by
  rw [lookup, getEntry]
  cases getFromBucket hash key (m.buckets.getD (bucketIdx hash m key) []) <;> rfl

theorem place_no_trigger (fuel : Nat) (m : HashMap K V) (key : K) (value : V)
    (h : m.count + 1 ≤ m.maxCount) :
    ∃ m' b, place hash fuel m key value = some (m', b) ∧
      m'.capacity = m.capacity ∧ m'.maxCount = m.maxCount ∧
      m'.count ≤ m.count + 1 ∧ m'.lfNum = m.lfNum ∧ m'.lfDen = m.lfDen := by
  rw [place_unfold]
  by_cases hfound : (placeInBucket hash key value
      (m.buckets.getD (bucketIdx hash m key) [])).2 = true
  · rw [if_pos hfound]
    exact ⟨_, true, rfl, rfl, rfl, Nat.le_succ _, rfl, rfl⟩
  · rw [if_neg hfound]
    have hnt : ¬({ m with
        buckets := m.buckets.set (bucketIdx hash m key)
          (placeInBucket hash key value (m.buckets.getD (bucketIdx hash m key) [])).1,
        count := m.count + 1 } : HashMap K V).maxCount <
        ({ m with
        buckets := m.buckets.set (bucketIdx hash m key)
          (placeInBucket hash key value (m.buckets.getD (bucketIdx hash m key) [])).1,
        count := m.count + 1 } : HashMap K V).count := by
      simp only
      omega
    rw [if_neg hnt]
    exact ⟨_, false, rfl, rfl, rfl, Nat.le_refl _, rfl, rfl⟩

theorem reinsertChain_no_trigger (fuel : Nat) :
    ∀ (L : List (Entry K V)) (acc : HashMap K V),
      acc.count + L.length ≤ acc.maxCount →
      ∃ m'', reinsertChain (place hash fuel) acc L = some m'' ∧
        m''.capacity = acc.capacity ∧ m''.maxCount = acc.maxCount ∧
        m''.count ≤ acc.count + L.length ∧
        m''.lfNum = acc.lfNum ∧ m''.lfDen = acc.lfDen := by
  intro L
  induction L with
  | nil =>
    intro acc _
    exact ⟨acc, rfl, rfl, rfl, by simp, rfl, rfl⟩
  | cons e rest ih =>
    intro acc hbound
    obtain ⟨m1, b, hpl, hcap, hmax, hcnt, hnum, hden⟩ :=
      place_no_trigger hash fuel acc e.key e.value (by simp at hbound; omega)
    obtain ⟨m2, hrest, hcap2, hmax2, hcnt2, hnum2, hden2⟩ :=
      ih m1 (by rw [hmax]; simp at hbound; omega)
    refine ⟨m2, ?_, ?_, ?_, ?_, ?_, ?_⟩
    · rw [reinsertChain, hpl]
      exact hrest
    · rw [hcap2, hcap]
    · rw [hmax2, hmax]
    · simp only [List.length_cons]
      omega
    · rw [hnum2, hnum]
    · rw [hden2, hden]

theorem reinsertChain_append (pl : HashMap K V → K → V → Option (HashMap K V × Bool))
    (l1 l2 : List (Entry K V)) (acc : HashMap K V) :
    reinsertChain pl acc (l1 ++ l2) =
      (reinsertChain pl acc l1).bind (fun a => reinsertChain pl a l2) := by
  induction l1 generalizing acc with
  | nil => simp [reinsertChain]
  | cons e rest ih =>
    simp only [List.cons_append, reinsertChain]
    cases pl acc e.key e.value with
    | none => rfl
    | some p => exact ih p.1

theorem reinsertBuckets_eq_chain (pl : HashMap K V → K → V → Option (HashMap K V × Bool))
    (bs : List (List (Entry K V))) (acc : HashMap K V) :
    reinsertBuckets pl acc bs = reinsertChain pl acc bs.flatten := by
  induction bs generalizing acc with
  | nil => rfl
  | cons c rest ih =>
    rw [List.flatten_cons, reinsertChain_append, reinsertBuckets]
    cases hc : reinsertChain pl acc c with
    | none => rfl
    | some m1 => exact ih m1

/-! ### Contract of the reinsertion loop and of `Reallocate` -/

theorem reinsertChain_spec (f : Nat) (hp : PlaceSpecAt (V := V) hash f) :
    ∀ (L : List (Entry K V)) (acc m'' : HashMap K V), WF hash acc →
      (L.map Entry.key).Nodup →
      (∀ e ∈ L, lookup hash acc e.key = none) →
      reinsertChain (place hash f) acc L = some m'' →
      WF hash m'' ∧ m''.count = acc.count + L.length ∧
        (∀ e ∈ L, lookup hash m'' e.key = some e.value) ∧
        (∀ k, k ∉ L.map Entry.key → lookup hash m'' k = lookup hash acc k) ∧
        (∃ j, m''.capacity = acc.capacity * 2 ^ j) ∧
        m''.lfNum = acc.lfNum ∧ m''.lfDen = acc.lfDen := by
  intro L
  induction L with
  | nil =>
    intro acc m'' hwf _ _ hrun
    rw [reinsertChain] at hrun
    cases hrun
    exact ⟨hwf, by simp, by simp, fun k _ => rfl, ⟨0, by simp⟩, rfl, rfl⟩
  | cons e rest ih =>
    intro acc m'' hwf hnd hfresh hrun
    rw [reinsertChain] at hrun
    cases hpl : place hash f acc e.key e.value with
    | none => rw [hpl] at hrun; cases hrun
    | some p =>
      rw [hpl] at hrun
      obtain ⟨m1, b⟩ := p
      have hout := hp acc e.key e.value m1 b hwf hpl
      have hbfalse : b = false := by
        rcases hb : b with _ | _
        · rfl
        · exfalso
          have hs := hout.foundIff.mp hb
          rw [hfresh e (List.mem_cons_self _ _)] at hs
          simp at hs
      have hnd2 : e.key ∉ rest.map Entry.key ∧ (rest.map Entry.key).Nodup := by
        simpa using hnd
      have hfresh2 : ∀ x ∈ rest, lookup hash m1 x.key = none := by
        intro x hx
        rw [hout.frame x.key
          (fun hk => hnd2.1 (hk ▸ List.mem_map_of_mem Entry.key hx))]
        exact hfresh x (List.mem_cons_of_mem _ hx)
      obtain ⟨hwf2, hcnt2, hself2, hframe2, hcap2, hnum2, hden2⟩ :=
        ih m1 m'' hout.wf hnd2.2 hfresh2 hrun
      have hcnt1 : m1.count = acc.count + 1 := by
        have hc := hout.cnt
        rw [hbfalse] at hc
        simpa using hc
      refine ⟨hwf2, ?_, ?_, ?_, ?_, ?_, ?_⟩
      · rw [hcnt2, hcnt1]
        simp only [List.length_cons]
        omega
      · intro x hx
        rcases List.mem_cons.mp hx with heq | hx'
        · subst heq
          rw [hframe2 x.key hnd2.1]
          exact hout.self
        · exact hself2 x hx'
      · intro k hk
        have hk2 : k ≠ e.key ∧ k ∉ rest.map Entry.key := by
          simpa using hk
        rw [hframe2 k hk2.2]
        exact hout.frame k hk2.1
      · obtain ⟨j1, hj1⟩ := hout.capGrow
        obtain ⟨j2, hj2⟩ := hcap2
        exact ⟨j1 + j2, by rw [hj2, hj1, Nat.mul_assoc, ← Nat.pow_add]⟩
      · rw [hnum2, hout.num]
      · rw [hden2, hout.den]

theorem realloc_spec (f : Nat) (hp : PlaceSpecAt (V := V) hash f)
    (m m'' : HashMap K V) (hwf : WF hash m)
    (hrun : reallocWith (place hash f) m = some m'') :
    ReallocOut hash m m'' := by
  rw [reallocWith, reinsertBuckets_eq_chain] at hrun
  obtain ⟨hwf2, hcnt2, hself2, hframe2, hcap2, hnum2, hden2⟩ :=
    reinsertChain_spec hash f hp m.buckets.flatten (grown m) m''
      (wf_grown hash m hwf) hwf.keysND
      (fun e _ => lookup_grown hash m e.key) hrun
  refine ⟨hwf2, ?_, ?_, ?_, hnum2, hden2⟩
  · intro k
    by_cases hk : k ∈ m.buckets.flatten.map Entry.key
    · obtain ⟨e, he, hek⟩ := List.mem_map.mp hk
      subst hek
      rw [hself2 e he, lookup_of_mem hash m hwf e he]
    · rw [hframe2 k hk, lookup_grown]
      exact ((lookup_none_iff_not_mem hash m hwf k).mpr hk).symm
  · rw [hcnt2, hwf.cntEq]
    simp [grown]
  · obtain ⟨j, hj⟩ := hcap2
    refine ⟨j, ?_⟩
    rw [hj]
    show m.capacity * 2 * 2 ^ j = m.capacity * 2 ^ (j + 1)
    rw [Nat.pow_succ]
    ring

/-! ### The master contract of `place`, by strong induction on fuel -/

theorem place_spec : ∀ f : Nat, PlaceSpecAt (V := V) hash f := by
  intro f
  induction f using Nat.strong_induction_on with
  | _ f ih =>
    intro m key value m' b hwf hp
    rw [place_unfold] at hp
    by_cases hfound : (placeInBucket hash key value
        (m.buckets.getD (bucketIdx hash m key) [])).2 = true
    · rw [if_pos hfound] at hp
      injection hp with hpair
      injection hpair with hmeq hbeq
      subst hbeq
      obtain ⟨hwf', hself, hframe⟩ :=
        place_found_state hash m key value hwf hfound m' hmeq.symm
      have hsome : (lookup hash m key).isSome := by
        rw [lookup_isSome_eq]
        exact (placeInBucket_found_iff hash key value _).mp hfound
      refine ⟨hwf', hself, hframe, by simp [hsome], ?_, ?_, ?_, ?_, ?_, ?_, ?_⟩
      · rw [← hmeq]; simp
      · rw [← hmeq]
        exact ⟨0, by simp⟩
      · rw [← hmeq]
      · rw [← hmeq]
      · intro _
        rw [← hmeq]
        exact ⟨rfl, rfl⟩
      · intro hfalse; cases hfalse
      · intro hfalse; cases hfalse
    · rw [if_neg hfound] at hp
      dsimp only at hp
      have hnone : lookup hash m key = none := by
        rw [← Option.not_isSome_iff_eq_none, lookup_isSome_eq]
        intro hs
        exact hfound ((placeInBucket_found_iff hash key value _).mpr hs)
      by_cases htrig : m.maxCount < m.count + 1
      · rw [if_pos htrig] at hp
        cases f with
        | zero => simp at hp
        | succ f' =>
          dsimp only at hp
          cases hre : reallocWith (place hash f') ({ m with buckets := m.buckets.set (bucketIdx hash m key) (placeInBucket hash key value (m.buckets.getD (bucketIdx hash m key) [])).1, count := m.count + 1 } : HashMap K V) with
          | none => rw [hre] at hp; simp at hp
          | some m2 =>
            rw [hre] at hp
            dsimp only at hp
            injection hp with hpair
            injection hpair with hmeq hbeq
            subst hmeq
            subst hbeq
            obtain ⟨hwf1, hself1, hframe1⟩ :=
              place_new_state hash m key value hwf hnone _ rfl _ rfl
            have rout := realloc_spec hash f' (ih f' (Nat.lt_succ_self f'))
              _ m2 hwf1 hre
            refine ⟨rout.wf, ?_, ?_, by simp [hnone], ?_, ?_, ?_, ?_, ?_, ?_, ?_⟩
            · rw [rout.look key]
              exact hself1
            · intro k' hk'
              rw [rout.look k']
              exact hframe1 k' hk'
            · rw [rout.cnt]
              simp
            · obtain ⟨j, hj⟩ := rout.cap
              exact ⟨j + 1, by rw [hj]⟩
            · rw [rout.num]
            · rw [rout.den]
            · intro hfalse; cases hfalse
            · intro _ _
              obtain ⟨j, hj⟩ := rout.cap
              exact ⟨j, by rw [hj]⟩
            · intro _ hle
              exact absurd htrig (by omega)
      · rw [if_neg htrig] at hp
        injection hp with hpair
        injection hpair with hmeq hbeq
        subst hbeq
        obtain ⟨hwf1, hself1, hframe1⟩ :=
          place_new_state hash m key value hwf hnone _ rfl m' hmeq.symm
        refine ⟨hwf1, hself1, hframe1, by simp [hnone], ?_, ?_, ?_, ?_, ?_, ?_, ?_⟩
        · rw [← hmeq]; simp
        · rw [← hmeq]
          exact ⟨0, by simp⟩
        · rw [← hmeq]
        · rw [← hmeq]
        · intro hfalse; cases hfalse
        · intro _ hlt
          exact absurd hlt (by omega)
        · intro _ _
          rw [← hmeq]
          exact ⟨rfl, rfl⟩

/-! ### Contract of `Remove` -/

theorem remove_found_state (m : HashMap K V) (key : K) (hwf : WF hash m)
    (hr : (removeFromBucket hash key
      (m.buckets.getD (bucketIdx hash m key) [])).2 = true)
    (bs1 : List (List (Entry K V)))
    (hbs1 : bs1 = m.buckets.set (bucketIdx hash m key)
      (removeFromBucket hash key (m.buckets.getD (bucketIdx hash m key) [])).1)
    (m' : HashMap K V)
    (hm' : m' = { m with buckets := bs1, count := m.count - 1 }) :
    WF hash m' ∧ m'.count + 1 = m.count ∧ lookup hash m' key = none ∧
      (∀ k', k' ≠ key → lookup hash m' k' = lookup hash m k') := by
  have hidxlen := bucketIdx_lt hash m hwf key
  have hold := flatten_decomp m.buckets (bucketIdx hash m key) hidxlen
  have hnew := flatten_set m.buckets (bucketIdx hash m key)
    (removeFromBucket hash key (m.buckets.getD (bucketIdx hash m key) [])).1 hidxlen
  have hsubl : List.Sublist
      ((m.buckets.take (bucketIdx hash m key)).flatten ++
        (removeFromBucket hash key (m.buckets.getD (bucketIdx hash m key) [])).1 ++
        (m.buckets.drop (bucketIdx hash m key + 1)).flatten)
      m.buckets.flatten := by
    rw [hold]
    exact ((List.Sublist.refl _).append
      (removeFromBucket_sublist hash key _)).append (List.Sublist.refl _)
  have hcnt0 := hwf.cntEq
  have hlen1 := removeFromBucket_length hash key
    (m.buckets.getD (bucketIdx hash m key) []) hr
  obtain ⟨bs, cap, cnt, ln, ld, mx⟩ := m
  subst hbs1
  subst hm'
  simp only [bucketIdx] at hold hnew hidxlen hr hsubl hlen1 ⊢
  simp only at hcnt0
  have hcnt1 : cnt = ((bs.take (hash key % cap)).flatten).length +
      ((bs.getD (hash key % cap) [])).length +
      ((bs.drop (hash key % cap + 1)).flatten).length := by
    rw [hcnt0, hold]
    simp only [List.length_append]
  refine ⟨⟨?_, hwf.capPos, hwf.denPos, ?_, ?_, ?_, ?_, hwf.maxEq⟩, ?_, ?_, ?_⟩
  · simpa using hwf.len
  · intro e he
    simp only at he
    rw [hnew] at he
    exact hwf.hashes e (hsubl.mem he)
  · intro i hi e he
    simp only [bucketIdx] at he hi ⊢
    by_cases hie : i = hash key % cap
    · subst hie
      rw [getD_set_self _ _ _ _ hidxlen] at he
      exact hwf.placed _ hi e ((removeFromBucket_sublist hash key _).mem he)
    · rw [getD_set_ne _ _ _ _ _ (fun hh => hie hh.symm)] at he
      exact hwf.placed i hi e he
  · simp only
    rw [hnew]
    exact (hsubl.map Entry.key).nodup hwf.keysND
  · simp only
    rw [hnew]
    simp only [List.length_append]
    omega
  · show cnt - 1 + 1 = cnt
    omega
  · simp only [lookup, getEntry, bucketIdx]
    rw [getD_set_self _ _ _ _ hidxlen]
    rw [getFromBucket_removeFromBucket_self hash key _
      (chain_key_nodup hash _ hwf _ hidxlen)]
    rfl
  · intro k' hk'
    simp only [lookup, getEntry, bucketIdx]
    by_cases hsame : hash k' % cap = hash key % cap
    · rw [hsame, getD_set_self _ _ _ _ hidxlen,
        getFromBucket_removeFromBucket_ne hash key k' _ hk']
    · rw [getD_set_ne _ _ _ _ _ (fun hh => hsame hh.symm)]

theorem remove_spec (m : HashMap K V) (key : K) (hwf : WF hash m) :
    (lookup hash m key = none → remove hash m key = (m, false)) ∧
    ((lookup hash m key).isSome →
      (remove hash m key).2 = true ∧
      WF hash (remove hash m key).1 ∧
      (remove hash m key).1.count + 1 = m.count ∧
      lookup hash (remove hash m key).1 key = none ∧
      (∀ k', k' ≠ key →
        lookup hash (remove hash m key).1 k' = lookup hash m k') ∧
      (remove hash m key).1.capacity = m.capacity ∧
      (remove hash m key).1.maxCount = m.maxCount ∧
      (remove hash m key).1.lfNum = m.lfNum ∧
      (remove hash m key).1.lfDen = m.lfDen) := by
  constructor
  · intro hnone
    have hr : (removeFromBucket hash key
        (m.buckets.getD (bucketIdx hash m key) [])).2 = false := by
      have hiff := removeFromBucket_found_iff hash key
        (m.buckets.getD (bucketIdx hash m key) [])
      have hns : ¬ (lookup hash m key).isSome := by
        rw [hnone]; simp
      rw [lookup_isSome_eq] at hns
      rcases hb : (removeFromBucket hash key
          (m.buckets.getD (bucketIdx hash m key) [])).2 with _ | _
      · rfl
      · exact absurd (hiff.mp hb) hns
    rw [remove]
    simp only [hr]
    rfl
  · intro hsome
    have hr : (removeFromBucket hash key
        (m.buckets.getD (bucketIdx hash m key) [])).2 = true := by
      rw [lookup_isSome_eq] at hsome
      exact (removeFromBucket_found_iff hash key _).mpr hsome
    have hres : remove hash m key =
        ({ m with buckets := m.buckets.set (bucketIdx hash m key) (removeFromBucket hash key (m.buckets.getD (bucketIdx hash m key) [])).1, count := m.count - 1 }, true) := by
      rw [remove]
      simp only [hr]
      rfl
    obtain ⟨hwf', hcnt', hself', hframe'⟩ :=
      remove_found_state hash m key hwf hr _ rfl _ rfl
    rw [hres]
    exact ⟨rfl, hwf', hcnt', hself', hframe', rfl, rfl, rfl, rfl⟩

/-! ### Contract of `Clear` -/

theorem map_const_nil {α β : Type _} (l : List α) :
    l.map (fun _ => ([] : List β)) = List.replicate l.length [] := by
  induction l with
  | nil => rfl
  | cons x xs ih => simp [List.replicate_succ, ih]

theorem clear_eq_init (m : HashMap K V) (hwf : WF hash m) :
    clear m = (init m.capacity m.lfNum m.lfDen : HashMap K V) := by
  have hlen := hwf.len
  have hmax := hwf.maxEq
  obtain ⟨bs, cap, cnt, ln, ld, mx⟩ := m
  simp only at hlen hmax
  simp only [clear, init]
  rw [map_const_nil, hlen, hmax]

theorem lookup_clear (m : HashMap K V) (k : K) : lookup hash (clear m) k = none := by
  simp only [lookup, getEntry, clear, bucketIdx]
  rw [map_const_nil, getD_replicate_nil]
  rfl

theorem wf_clear (m : HashMap K V) (hwf : WF hash m) : WF hash (clear m) := by
  rw [clear_eq_init hash m hwf]
  exact wf_init hash _ _ _ hwf.capPos hwf.denPos

/-! ### Iterator traversal -/

theorem drop_eq_getD_cons {α : Type _} (l : List α) (i : Nat) (d : α)
    (h : i < l.length) : l.drop i = l.getD i d :: l.drop (i + 1) := by
  induction l generalizing i with
  | nil => simp at h
  | cons x xs ih =>
    cases i with
    | zero => rfl
    | succ n =>
      simp only [List.drop_succ_cons, List.getD_cons_succ]
      exact ih n (by simpa using h)

theorem scanAux_spec (buckets : List (List (Entry K V))) (capacity : Nat) :
    ∀ steps i, capacity ≤ i + steps →
      ((scanAux buckets capacity i steps).2 ≠ [] →
        i ≤ (scanAux buckets capacity i steps).1 ∧
        (scanAux buckets capacity i steps).1 < capacity ∧
        (scanAux buckets capacity i steps).2 =
          buckets.getD (scanAux buckets capacity i steps).1 []) ∧
      ((scanAux buckets capacity i steps).2 = [] →
        capacity ≤ (scanAux buckets capacity i steps).1) := by
  intro steps
  induction steps with
  | zero =>
    intro i hci
    refine ⟨fun hne => absurd rfl hne, fun _ => ?_⟩
    show capacity ≤ i
    omega
  | succ s ih =>
    intro i hci
    by_cases hcap : capacity ≤ i
    · have hstep : scanAux buckets capacity i (s + 1) = (i, []) := by
        rw [scanAux, if_pos hcap]
      rw [hstep]
      exact ⟨fun hne => absurd rfl hne, fun _ => hcap⟩
    · cases hbi : buckets.getD i [] with
      | nil =>
        have hstep : scanAux buckets capacity i (s + 1) =
            scanAux buckets capacity (i + 1) s := by
          rw [scanAux, if_neg hcap, hbi]
        rw [hstep]
        obtain ⟨h1, h2⟩ := ih (i + 1) (by omega)
        refine ⟨fun hne => ?_, fun he => h2 he⟩
        · obtain ⟨ha, hb, hc⟩ := h1 hne
          exact ⟨by omega, hb, hc⟩
      | cons e tail =>
        have hstep : scanAux buckets capacity i (s + 1) = (i, e :: tail) := by
          rw [scanAux, if_neg hcap, hbi]
        rw [hstep]
        refine ⟨fun _ => ⟨Nat.le_refl _, by omega, hbi.symm⟩, fun he => ?_⟩
        simp at he

theorem iterVisit_end (buckets : List (List (Entry K V))) (capacity fuel i : Nat) :
    iterVisit buckets capacity fuel (i, []) = [] := by
  cases fuel <;> rfl

theorem iterVisit_scanFrom_end (buckets : List (List (Entry K V)))
    (capacity fuel i : Nat) (hci : capacity ≤ i) :
    iterVisit buckets capacity fuel (scanFrom buckets capacity i) = [] := by
  have h0 : capacity - i = 0 := by omega
  rw [scanFrom, h0]
  exact iterVisit_end buckets capacity fuel i

theorem iterVisit_spec (buckets : List (List (Entry K V))) (capacity : Nat)
    (hlen : buckets.length = capacity) :
    ∀ fuel : Nat,
      (∀ i pos, pos ≠ [] →
        pos.length + ((buckets.drop (i + 1)).flatten).length ≤ fuel →
        iterVisit buckets capacity fuel (i, pos) =
          pos ++ (buckets.drop (i + 1)).flatten) ∧
      (∀ i, ((buckets.drop i).flatten).length ≤ fuel →
        iterVisit buckets capacity fuel (scanFrom buckets capacity i) =
          (buckets.drop i).flatten) := by
  intro fuel
  induction fuel using Nat.strong_induction_on with
  | _ fuel ih =>
    have hA : ∀ i pos, pos ≠ [] →
        pos.length + ((buckets.drop (i + 1)).flatten).length ≤ fuel →
        iterVisit buckets capacity fuel (i, pos) =
          pos ++ (buckets.drop (i + 1)).flatten := by
      intro i pos hne hb
      cases pos with
      | nil => exact absurd rfl hne
      | cons e rest =>
        cases fuel with
        | zero => simp at hb
        | succ f =>
          cases rest with
          | nil =>
            have hstep : iterVisit buckets capacity (f + 1) (i, [e]) =
                e :: iterVisit buckets capacity f (scanFrom buckets capacity (i + 1)) := rfl
            rw [hstep]
            have hB' := (ih f (Nat.lt_succ_self f)).2 (i + 1)
              (by simp only [List.length_singleton] at hb; omega)
            rw [hB']
            simp
          | cons e2 rest2 =>
            have hstep : iterVisit buckets capacity (f + 1) (i, e :: e2 :: rest2) =
                e :: iterVisit buckets capacity f (i, e2 :: rest2) := rfl
            rw [hstep]
            have hA' := (ih f (Nat.lt_succ_self f)).1 i (e2 :: rest2)
              (List.cons_ne_nil _ _) (by simp only [List.length_cons] at hb ⊢; omega)
            rw [hA']
            simp
    refine ⟨hA, ?_⟩
    have hB : ∀ n i, capacity - i ≤ n →
        ((buckets.drop i).flatten).length ≤ fuel →
        iterVisit buckets capacity fuel (scanFrom buckets capacity i) =
          (buckets.drop i).flatten := by
      intro n
      induction n with
      | zero =>
        intro i hni hb
        have hci : capacity ≤ i := by omega
        rw [iterVisit_scanFrom_end buckets capacity fuel i hci]
        rw [List.drop_eq_nil_of_le (by omega)]
        rfl
      | succ n ihn =>
        intro i hni hb
        by_cases hci : capacity ≤ i
        · rw [iterVisit_scanFrom_end buckets capacity fuel i hci]
          rw [List.drop_eq_nil_of_le (by omega)]
          rfl
        · have hlti : i < buckets.length := by omega
          have hdec := drop_eq_getD_cons buckets i [] hlti
          obtain ⟨s, hs⟩ : ∃ s, capacity - i = s + 1 := ⟨capacity - i - 1, by omega⟩
          cases hbi : buckets.getD i [] with
          | nil =>
            have hstep : scanFrom buckets capacity i =
                scanFrom buckets capacity (i + 1) := by
              rw [scanFrom, hs, scanAux, if_neg hci, hbi, scanFrom]
              have hseq : s = capacity - (i + 1) := by omega
              rw [hseq]
            rw [hstep]
            have hflat : (buckets.drop i).flatten =
                (buckets.drop (i + 1)).flatten := by
              rw [hdec, hbi]
              simp
            rw [hflat]
            exact ihn (i + 1) (by omega) (by rw [← hflat]; exact hb)
          | cons e tail =>
            have hstep : scanFrom buckets capacity i = (i, e :: tail) := by
              rw [scanFrom, hs, scanAux, if_neg hci, hbi]
            have hflat : (buckets.drop i).flatten =
                (e :: tail) ++ (buckets.drop (i + 1)).flatten := by
              rw [hdec, hbi]
              simp
            rw [hstep, hflat]
            exact hA i (e :: tail) (by simp)
              (by rw [hflat] at hb; simp only [List.length_append] at hb; omega)
    intro i hb
    exact hB (capacity - i) i (Nat.le_refl _) hb

theorem iterBegin_eq_scanFrom (buckets : List (List (Entry K V))) (capacity : Nat)
    (hpos : 0 < capacity) :
    iterBegin buckets capacity = scanFrom buckets capacity 0 := by
  obtain ⟨s, hs⟩ : ∃ s, capacity = s + 1 := ⟨capacity - 1, by omega⟩
  subst hs
  have h1 : scanFrom buckets (s + 1) 0 = scanAux buckets (s + 1) 0 (s + 1) := by
    rw [scanFrom, Nat.sub_zero]
  rw [iterBegin, h1, scanAux, if_neg (by omega)]
  cases hbi : buckets.getD 0 [] with
  | nil =>
    show scanFrom buckets (s + 1) 1 = scanAux buckets (s + 1) 1 s
    rw [scanFrom]
    have h2 : s + 1 - 1 = s := by omega
    rw [h2]
  | cons e tail => rfl

theorem iterVisit_begin (m : HashMap K V) (hwf : WF hash m) (fuel : Nat)
    (hfuel : m.count ≤ fuel) :
    iterVisit m.buckets m.capacity fuel (iterBegin m.buckets m.capacity) =
      m.buckets.flatten := by
  rw [iterBegin_eq_scanFrom m.buckets m.capacity hwf.capPos]
  have := (iterVisit_spec m.buckets m.capacity hwf.len fuel).2 0
    (by rw [List.drop_zero, ← hwf.cntEq]; exact hfuel)
  rw [List.drop_zero] at this
  exact this

/-! ### Arithmetic of the growth threshold -/

theorem maxCount_double_ge (n c d : Nat) (hd : 0 < d) :
    2 * (n * c / d) ≤ n * (c * 2) / d := by
  have h1 : n * (c * 2) = 2 * (n * c) := by ring
  rw [h1, Nat.le_div_iff_mul_le hd]
  have h2 := Nat.div_mul_le_self (n * c) d
  calc 2 * (n * c / d) * d = 2 * (n * c / d * d) := by ring
  _ ≤ 2 * (n * c) := by omega

/-! ### Contract of `operator[]` (get-or-insert-default) -/

theorem getOrInsert_present [Inhabited V] (fuel : Nat) (m : HashMap K V) (key : K)
    (w : V) (hw : lookup hash m key = some w) :
    getOrInsert hash fuel m key = some (m, w) := by
  rw [lookup] at hw
  cases hg : getEntry hash m key with
  | none => rw [hg] at hw; simp at hw
  | some e =>
    rw [hg] at hw
    simp only [Option.map_some'] at hw
    injection hw with hw
    simp only [getOrInsert, hg]
    rw [hw]

theorem getOrInsert_absent [Inhabited V] (fuel : Nat) (m : HashMap K V) (key : K)
    (hwf : WF hash m) (hnone : lookup hash m key = none)
    (m1 : HashMap K V) (b : Bool)
    (hpl : place hash fuel m key (default : V) = some (m1, b)) :
    getOrInsert hash fuel m key = some (m1, (default : V)) ∧
      lookup hash m1 key = some (default : V) ∧
      m1.count = m.count + 1 ∧ WF hash m1 ∧ b = false := by
  have hout := place_spec hash fuel m key default m1 b hwf hpl
  have hb : b = false := by
    rcases hbb : b with _ | _
    · rfl
    · exfalso
      have hs := hout.foundIff.mp hbb
      rw [hnone] at hs
      simp at hs
  have hg0 : getEntry hash m key = none := by
    rw [lookup] at hnone
    cases hg : getEntry hash m key with
    | none => rfl
    | some e => rw [hg] at hnone; simp at hnone
  have hself := hout.self
  have hge : ∃ e, getEntry hash m1 key = some e ∧ e.value = (default : V) := by
    rw [lookup] at hself
    cases hg : getEntry hash m1 key with
    | none => rw [hg] at hself; simp at hself
    | some e =>
      rw [hg] at hself
      simp only [Option.map_some'] at hself
      injection hself with hself
      exact ⟨e, rfl, hself⟩
  obtain ⟨e, hge1, hge2⟩ := hge
  refine ⟨?_, hself, ?_, hout.wf, hb⟩
  · simp only [getOrInsert, hg0, hpl, hge1]
    rw [hge2]
  · have hc := hout.cnt
    rw [hb] at hc
    simpa using hc

/-! ### Whole-run invariant for sequences of public calls -/

theorem runOps_inv (fuel : Nat) :
    ∀ (ops : List (Op K V)) (m : HashMap K V) (s : List K) (m' : HashMap K V),
      WF hash m → s.Nodup →
      (∀ k, (lookup hash m k).isSome ↔ k ∈ s) →
      m.count = s.length →
      runOps hash fuel m ops = some m' →
      WF hash m' ∧ m'.count = (specKeys s ops).length ∧
        (∀ k, (lookup hash m' k).isSome ↔ k ∈ specKeys s ops) := by
  intro ops
  induction ops with
  | nil =>
    intro m s m' hwf hnd hiff hcnt hrun
    rw [runOps] at hrun
    cases hrun
    exact ⟨hwf, hcnt, hiff⟩
  | cons op rest ih =>
    intro m s m' hwf hnd hiff hcnt hrun
    cases op with
    | place k v =>
      rw [runOps] at hrun
      cases hpl : place hash fuel m k v with
      | none => rw [hpl] at hrun; cases hrun
      | some p =>
        rw [hpl] at hrun
        obtain ⟨m1, b⟩ := p
        have hout := place_spec hash fuel m k v m1 b hwf hpl
        by_cases hk : k ∈ s
        · have hb : b = true := hout.foundIff.mpr ((hiff k).mpr hk)
          have hiff1 : ∀ k', (lookup hash m1 k').isSome ↔ k' ∈ s := by
            intro k'
            by_cases hkk : k' = k
            · subst hkk
              rw [hout.self]
              simp [hk]
            · rw [hout.frame k' hkk]
              exact hiff k'
          have hcnt1 : m1.count = s.length := by
            have hc := hout.cnt
            rw [hb] at hc
            simp at hc
            omega
          simp only [specKeys]
          rw [if_pos hk]
          exact ih m1 s m' hout.wf hnd hiff1 hcnt1 hrun
        · have hb : b = false := by
            rcases hbb : b with _ | _
            · rfl
            · exact absurd ((hiff k).mp (hout.foundIff.mp hbb)) hk
          have hnd1 : (s ++ [k]).Nodup := by
            simp [List.nodup_append, hnd, hk]
          have hiff1 : ∀ k', (lookup hash m1 k').isSome ↔ k' ∈ s ++ [k] := by
            intro k'
            by_cases hkk : k' = k
            · subst hkk
              rw [hout.self]
              simp
            · rw [hout.frame k' hkk]
              rw [hiff k']
              simp [hkk]
          have hcnt1 : m1.count = (s ++ [k]).length := by
            have hc := hout.cnt
            rw [hb] at hc
            simp at hc
            simp [List.length_append]
            omega
          simp only [specKeys]
          rw [if_neg hk]
          exact ih m1 (s ++ [k]) m' hout.wf hnd1 hiff1 hcnt1 hrun
    | remove k =>
      rw [runOps] at hrun
      have hrs := remove_spec hash m k hwf
      by_cases hk : k ∈ s
      · have hsome : (lookup hash m k).isSome := (hiff k).mpr hk
        obtain ⟨hb, hwf1, hcnt1, hself1, hframe1, _, _, _, _⟩ := hrs.2 hsome
        have hnd1 : (s.erase k).Nodup := hnd.erase k
        have hiff1 : ∀ k', (lookup hash (remove hash m k).1 k').isSome ↔
            k' ∈ s.erase k := by
          intro k'
          by_cases hkk : k' = k
          · subst hkk
            rw [hself1]
            simp only [Option.isSome_none, Bool.false_eq_true, false_iff]
            intro hmem
            exact absurd rfl ((hnd.mem_erase_iff.mp hmem).1)
          · rw [hframe1 k' hkk]
            rw [hiff k']
            exact (List.mem_erase_of_ne hkk).symm
        have hlenE : (s.erase k).length = s.length - 1 :=
          List.length_erase_of_mem hk
        have hlen1 : 1 ≤ s.length := by
          cases s with
          | nil => simp at hk
          | cons a t => simp
        have hcntE : (remove hash m k).1.count = (s.erase k).length := by
          omega
        simp only [specKeys]
        exact ih _ (s.erase k) m' hwf1 hnd1 hiff1 hcntE hrun
      · have hnone : lookup hash m k = none := by
          rw [← Option.not_isSome_iff_eq_none]
          intro hs
          exact hk ((hiff k).mp hs)
        have hrm := hrs.1 hnone
        rw [hrm] at hrun
        have hse : s.erase k = s := List.erase_of_not_mem hk
        simp only [specKeys]
        rw [hse]
        exact ih _ s m' hwf hnd hiff hcnt hrun
    | clear =>
      rw [runOps] at hrun
      have hiff1 : ∀ k, (lookup hash (clear m) k).isSome ↔ k ∈ ([] : List K) := by
        intro k
        rw [lookup_clear]
        simp
      simp only [specKeys]
      exact ih (clear m) [] m' (wf_clear hash m hwf) List.nodup_nil hiff1 rfl hrun

/-! ## Claim theorems -/

/-- C1: for every key and value, after a completed `Place(key, value)` on any
well-formed table, a lookup of the key (also via `operator[]`, which finds
the existing entry without modifying the table) yields the value. -/
theorem claim1_place_roundtrip [Inhabited V] (fuel fuel2 : Nat)
    (m : HashMap K V) (key : K) (value : V) (m' : HashMap K V) (b : Bool)
    (hwf : WF hash m) (hpl : place hash fuel m key value = some (m', b)) :
    lookup hash m' key = some value ∧
      getOrInsert hash fuel2 m' key = some (m', value) := by
  have hout := place_spec hash fuel m key value m' b hwf hpl
  exact ⟨hout.self, getOrInsert_present hash fuel2 m' key value hout.self⟩

/-- C2: inserting a fresh key into a well-formed table whose `count` has
reached `maxCount` makes the count exceed the threshold and triggers a
capacity doubling during that insertion; afterwards the capacity is at
least doubled, every previously inserted key is still retrievable with its
value, the new key maps to its value, and `count` has grown by exactly
one. -/
theorem claim2_growth_preserves (fuel : Nat) (m : HashMap K V) (key : K)
    (value : V) (m' : HashMap K V) (b : Bool) (hwf : WF hash m)
    (hfresh : lookup hash m key = none) (hfull : m.maxCount ≤ m.count)
    (hpl : place hash fuel m key value = some (m', b)) :
    2 * m.capacity ≤ m'.capacity ∧ lookup hash m' key = some value ∧
      (∀ k', k' ≠ key → lookup hash m' k' = lookup hash m k') ∧
      m'.count = m.count + 1 := by
  have hout := place_spec hash fuel m key value m' b hwf hpl
  have hb : b = false := by
    rcases hbb : b with _ | _
    · rfl
    · exfalso
      have hs := hout.foundIff.mp hbb
      rw [hfresh] at hs
      simp at hs
  obtain ⟨j, hj⟩ := hout.trig hb (by omega)
  refine ⟨?_, hout.self, hout.frame, ?_⟩
  · rw [hj]
    have h2j : 2 ≤ 2 ^ (j + 1) := by
      calc (2 : Nat) = 2 ^ 1 := by norm_num
      _ ≤ 2 ^ (j + 1) := Nat.pow_le_pow_right (by norm_num) (by omega)
    calc 2 * m.capacity = m.capacity * 2 := by ring
    _ ≤ m.capacity * 2 ^ (j + 1) := Nat.mul_le_mul (Nat.le_refl _) h2j
  · have hc := hout.cnt
    rw [hb] at hc
    simpa using hc

/-- C3: for every finite sequence of `Place`/`Remove`/`Clear` calls that
completes from a fresh table, `Count()` equals the number of distinct keys
inserted and not subsequently removed or cleared (computed by the
specification-level `specKeys`), a key is retrievable exactly when it is
in that set, and at most one entry exists per distinct key. -/
theorem claim3_count_invariant (fuel cap n d : Nat) (hc : 0 < cap) (hd : 0 < d)
    (ops : List (Op K V)) (m : HashMap K V)
    (hrun : runOps hash fuel (init cap n d) ops = some m) :
    m.count = (specKeys [] ops).length ∧
      (∀ k, (lookup hash m k).isSome ↔ k ∈ specKeys [] ops) ∧
      (m.buckets.flatten.map Entry.key).Nodup := by
  have h := runOps_inv hash fuel ops (init cap n d) [] m
    (wf_init hash cap n d hc hd) List.nodup_nil
    (fun k => by rw [lookup_init]; simp) rfl hrun
  exact ⟨h.2.1, h.2.2, h.1.keysND⟩

/-- C4: indexed access never reports absence: on a present key it returns
the table unchanged together with the key's current value; on an absent
key it inserts a default-constructed value through the same `PlaceInBucket`
path as `Place` (so `count` increments and growth may fire) and returns the
now-present value. -/
theorem claim4_get_or_insert [Inhabited V] (fuel : Nat) (m : HashMap K V)
    (key : K) (hwf : WF hash m) :
    (∀ w, lookup hash m key = some w →
      getOrInsert hash fuel m key = some (m, w)) ∧
    (lookup hash m key = none →
      ∀ m1 b, place hash fuel m key (default : V) = some (m1, b) →
        getOrInsert hash fuel m key = some (m1, (default : V)) ∧
        lookup hash m1 key = some (default : V) ∧
        m1.count = m.count + 1 ∧ WF hash m1) := by
  constructor
  · intro w hw
    exact getOrInsert_present hash fuel m key w hw
  · intro hnone m1 b hpl
    obtain ⟨h1, h2, h3, h4, _⟩ :=
      getOrInsert_absent hash fuel m key hwf hnone m1 b hpl
    exact ⟨h1, h2, h3, h4⟩

/-- C5: `Remove(key)` returns `false` and leaves the table literally
unchanged when the key is absent; when the key is present it returns
`true`, unlinks that entry, decrements `count` by one, leaves all other
keys' values untouched, and performs no rehash or capacity/threshold
change. -/
theorem claim5_remove_correct (m : HashMap K V) (key : K) (hwf : WF hash m) :
    (lookup hash m key = none → remove hash m key = (m, false)) ∧
    (∀ w, lookup hash m key = some w →
      (remove hash m key).2 = true ∧
      (remove hash m key).1.count + 1 = m.count ∧
      lookup hash (remove hash m key).1 key = none ∧
      (∀ k', k' ≠ key →
        lookup hash (remove hash m key).1 k' = lookup hash m k') ∧
      (remove hash m key).1.capacity = m.capacity ∧
      (remove hash m key).1.maxCount = m.maxCount ∧
      WF hash (remove hash m key).1) := by
  have hrs := remove_spec hash m key hwf
  refine ⟨hrs.1, ?_⟩
  intro w hw
  have hsome : (lookup hash m key).isSome := by rw [hw]; rfl
  obtain ⟨h1, h2, h3, h4, h5, h6, h7, _, _⟩ := hrs.2 hsome
  exact ⟨h1, h3, h4, h5, h6, h7, h2⟩

/-- C6 (counterexample): with capacity 1 and load factor 1/4 — a load
factor inside (0, 1] — a single insertion into the empty table triggers
growth, the reinsertion re-triggers growth recursively inside the same
insertion, and the capacity ends at 4, not at 2: one doubling is not
always sufficient. -/
theorem claim6_counterexample :
    0 < (1 : Nat) ∧ (1 : Nat) ≤ 4 ∧
    (place (fun k => k) 2 (init 1 1 4 : HashMap Nat Nat) 0 0).map
      (fun p => p.1.capacity) = some 4 ∧
    (4 : Nat) ≠ 2 * (init 1 1 4 : HashMap Nat Nat).capacity := by
  refine ⟨by decide, by decide, by decide, by decide⟩

/-- C6 (amended): when the threshold is at least one (`1 ≤ maxCount`),
inserting a fresh key into a full well-formed table (`count = maxCount`)
triggers growth, the growth completes with one unit of fuel, capacity
doubles exactly once — the reinsertion loop never re-triggers — and the
doubled threshold accommodates the new count. -/
theorem claim6_growth_once_amended (fuel : Nat) (m : HashMap K V) (key : K)
    (value : V) (hwf : WF hash m) (hfresh : lookup hash m key = none)
    (hfull : m.count = m.maxCount) (hmax1 : 1 ≤ m.maxCount) :
    ∃ m', place hash (fuel + 1) m key value = some (m', false) ∧
      m'.capacity = 2 * m.capacity ∧ m'.count = m.count + 1 ∧
      m'.count ≤ m'.maxCount := by
  have hfound : ¬ (placeInBucket hash key value
      (m.buckets.getD (bucketIdx hash m key) [])).2 = true := by
    intro hs
    have hs2 := (placeInBucket_found_iff hash key value _).mp hs
    rw [← lookup_isSome_eq] at hs2
    rw [hfresh] at hs2
    simp at hs2
  set m1 : HashMap K V := { m with buckets := m.buckets.set (bucketIdx hash m key) (placeInBucket hash key value (m.buckets.getD (bucketIdx hash m key) [])).1, count := m.count + 1 } with hm1def
  obtain ⟨hwf1, hself1, hframe1⟩ :=
    place_new_state hash m key value hwf hfresh _ rfl m1 hm1def
  have hm1cap : m1.capacity = m.capacity := by rw [hm1def]
  have hm1cnt : m1.count = m.count + 1 := by rw [hm1def]
  have hm1max : m1.maxCount = m.maxCount := by rw [hm1def]
  have hm1num : m1.lfNum = m.lfNum := by rw [hm1def]
  have hm1den : m1.lfDen = m.lfDen := by rw [hm1def]
  have hm1flat : m1.buckets.flatten.length = m.count + 1 := by
    rw [← hm1cnt]
    exact hwf1.cntEq.symm
  have hgmax : (grown m1).maxCount = m.lfNum * (m.capacity * 2) / m.lfDen := by
    show m1.lfNum * (m1.capacity * 2) / m1.lfDen = _
    rw [hm1num, hm1cap, hm1den]
  have h3 := maxCount_double_ge m.lfNum m.capacity m.lfDen hwf.denPos
  have h4 := hwf.maxEq
  have hbound : (grown m1).count + m1.buckets.flatten.length ≤
      (grown m1).maxCount := by
    have h1 : (grown m1).count = 0 := rfl
    rw [h1, hm1flat, hgmax]
    omega
  obtain ⟨m'', hrein, hcap'', hmax'', hcnt'', hnum'', hden''⟩ :=
    reinsertChain_no_trigger hash fuel m1.buckets.flatten (grown m1) hbound
  have hreal : reallocWith (place hash fuel) m1 = some m'' := by
    rw [reallocWith, reinsertBuckets_eq_chain]
    exact hrein
  have htrigm1 : m1.maxCount < m1.count := by
    rw [hm1max, hm1cnt]
    omega
  have hplace : place hash (fuel + 1) m key value = some (m'', false) := by
    rw [place_unfold, if_neg hfound, ← hm1def, if_pos htrigm1]
    show (match reallocWith (place hash fuel) m1 with
      | none => none
      | some m2 => some (m2, false)) = some (m'', false)
    rw [hreal]
  have hcnt : m''.count = m.count + 1 := by
    have hout := place_spec hash (fuel + 1) m key value m'' false hwf hplace
    have hc := hout.cnt
    simpa using hc
  refine ⟨m'', hplace, ?_, hcnt, ?_⟩
  · rw [hcap'']
    show m1.capacity * 2 = 2 * m.capacity
    rw [hm1cap]
    ring
  · rw [hcnt, hmax'', hgmax]
    omega

/-- C7: iterating over a well-formed table visits exactly the table's
entries in bucket order, bucket 0's chain first in insertion-append order,
then bucket 1's chain and so on; every live key is visited exactly once
and the number of visited positions equals `Count()`. -/
theorem claim7_iteration_complete (fuel : Nat) (m : HashMap K V)
    (hwf : WF hash m) (hfuel : m.count ≤ fuel) :
    iterVisit m.buckets m.capacity fuel (iterBegin m.buckets m.capacity) =
      m.buckets.flatten ∧
    (iterVisit m.buckets m.capacity fuel
      (iterBegin m.buckets m.capacity)).length = m.count ∧
    ((iterVisit m.buckets m.capacity fuel
      (iterBegin m.buckets m.capacity)).map Entry.key).Nodup := by
  have h := iterVisit_begin hash m hwf fuel hfuel
  refine ⟨h, ?_, ?_⟩
  · rw [h]
    exact hwf.cntEq.symm
  · rw [h]
    exact hwf.keysND

/-- C8: `Place(key, v1)` then `Place(key, v2)` on a well-formed table: the
second call reports the key as already present, never reallocates
(it completes with any fuel), leaves `count` unchanged from after the
first call, and a subsequent lookup yields `v2`; the first call added one
to `count` exactly when the key was new. -/
theorem claim8_overwrite (fuel fuel2 : Nat) (m : HashMap K V) (key : K)
    (v1 v2 : V) (m1 : HashMap K V) (b1 : Bool) (hwf : WF hash m)
    (hp1 : place hash fuel m key v1 = some (m1, b1)) :
    ∃ m2, place hash fuel2 m1 key v2 = some (m2, true) ∧
      lookup hash m2 key = some v2 ∧ m2.count = m1.count ∧
      (b1 = false → m1.count = m.count + 1) ∧
      (b1 = true → m1.count = m.count) := by
  have hout1 := place_spec hash fuel m key v1 m1 b1 hwf hp1
  have hfound2 : (placeInBucket hash key v2
      (m1.buckets.getD (bucketIdx hash m1 key) [])).2 = true := by
    rw [placeInBucket_found_iff, ← lookup_isSome_eq, hout1.self]
    rfl
  obtain ⟨hwf2, hself2, hframe2⟩ :=
    place_found_state hash m1 key v2 hout1.wf hfound2 _ rfl
  refine ⟨_, ?_, hself2, rfl, ?_, ?_⟩
  · rw [place_unfold, if_pos hfound2]
  · intro hb
    have hc := hout1.cnt
    rw [hb] at hc
    simpa using hc
  · intro hb
    have hc := hout1.cnt
    rw [hb] at hc
    simpa using hc

/-- C9: after `Clear()` the table equals a freshly constructed table of the
same (possibly post-growth) capacity and load factor: `Count() = 0`,
every lookup misses, iterating any view yields no elements, and
`capacity` and `maxCount` keep their pre-clear values. -/
theorem claim9_clear_resets (m : HashMap K V) (hwf : WF hash m) :
    clear m = (init m.capacity m.lfNum m.lfDen : HashMap K V) ∧
    (clear m).count = 0 ∧ (clear m).capacity = m.capacity ∧
    (clear m).maxCount = m.maxCount ∧
    (∀ k, lookup hash (clear m) k = none) ∧
    (∀ fuel, iterVisit (clear m).buckets (clear m).capacity fuel
      (iterBegin (clear m).buckets (clear m).capacity) = []) := by
  refine ⟨clear_eq_init hash m hwf, rfl, rfl, rfl,
    fun k => lookup_clear hash m k, ?_⟩
  intro fuel
  have h := iterVisit_begin hash (clear m) (wf_clear hash m hwf) fuel
    (Nat.zero_le fuel)
  rw [h]
  show (m.buckets.map (fun _ => ([] : List (Entry K V)))).flatten = []
  rw [map_const_nil, flatten_replicate_nil]

/-- C10: advancing a cursor is well-defined only off the end sentinel: on
the null cursor `operator++` dereferences the null entry (modelled as
`none`, no guarantee); on a non-end cursor it moves to the next entry of
the current chain, or scans forward to the head of the first non-empty
bucket at a higher index, landing on the null sentinel (index at least
`capacity`) when the array is exhausted. -/
theorem claim10_advance_defined (buckets : List (List (Entry K V)))
    (capacity i : Nat) :
    iterNext buckets capacity (i, ([] : List (Entry K V))) = none ∧
    (∀ (e : Entry K V) (rest : List (Entry K V)), rest ≠ [] →
      iterNext buckets capacity (i, e :: rest) = some (i, rest)) ∧
    (∀ e : Entry K V, iterNext buckets capacity (i, [e]) =
      some (scanFrom buckets capacity (i + 1))) ∧
    (∀ j, (scanFrom buckets capacity j).2 ≠ [] →
      j ≤ (scanFrom buckets capacity j).1 ∧
      (scanFrom buckets capacity j).1 < capacity ∧
      (scanFrom buckets capacity j).2 =
        buckets.getD (scanFrom buckets capacity j).1 []) ∧
    (∀ j, (scanFrom buckets capacity j).2 = [] →
      capacity ≤ (scanFrom buckets capacity j).1) := by
  refine ⟨rfl, ?_, fun e => rfl, ?_, ?_⟩
  · intro e rest hne
    cases rest with
    | nil => exact absurd rfl hne
    | cons e2 rest2 => rfl
  · intro j hne
    exact (scanAux_spec buckets capacity (capacity - j) j (by omega)).1 hne
  · intro j he
    exact (scanAux_spec buckets capacity (capacity - j) j (by omega)).2 he

/-! ## Witnesses: each claim theorem applied at a concrete input -/

/-- Witness for C1 at the identity hash, a fresh table of capacity 2 and
load factor 3/4, key 5 and value 7. -/
theorem claim1_witness :
    WF (fun k => k) (init 2 3 4 : HashMap Nat Nat) ∧
    place (fun k => k) 1 (init 2 3 4 : HashMap Nat Nat) 5 7 =
      some (⟨[[], [⟨5, 5, 7⟩]], 2, 1, 3, 4, 1⟩, false) ∧
    (lookup (fun k => k) (⟨[[], [⟨5, 5, 7⟩]], 2, 1, 3, 4, 1⟩ : HashMap Nat Nat) 5 =
        some 7 ∧
      getOrInsert (fun k => k) 0
          (⟨[[], [⟨5, 5, 7⟩]], 2, 1, 3, 4, 1⟩ : HashMap Nat Nat) 5 =
        some (⟨[[], [⟨5, 5, 7⟩]], 2, 1, 3, 4, 1⟩, 7)) :=
  ⟨wf_init (fun k => k) 2 3 4 (by decide) (by decide), by decide,
    claim1_place_roundtrip (fun k => k) 1 0 (init 2 3 4) 5 7 _ false
      (wf_init (fun k => k) 2 3 4 (by decide) (by decide)) (by decide)⟩

/-- Witness for C2: a full table (capacity 1, load factor 1, one entry) on
which inserting the fresh key 1 doubles the capacity and keeps the old
entry. -/
theorem claim2_witness :
    WF (fun k => k) (⟨[[⟨0, 0, 5⟩]], 1, 1, 1, 1, 1⟩ : HashMap Nat Nat) ∧
    lookup (fun k => k) (⟨[[⟨0, 0, 5⟩]], 1, 1, 1, 1, 1⟩ : HashMap Nat Nat) 1 = none ∧
    (⟨[[⟨0, 0, 5⟩]], 1, 1, 1, 1, 1⟩ : HashMap Nat Nat).maxCount ≤
      (⟨[[⟨0, 0, 5⟩]], 1, 1, 1, 1, 1⟩ : HashMap Nat Nat).count ∧
    place (fun k => k) 1 (⟨[[⟨0, 0, 5⟩]], 1, 1, 1, 1, 1⟩ : HashMap Nat Nat) 1 9 =
      some (⟨[[⟨0, 0, 5⟩], [⟨1, 1, 9⟩]], 2, 2, 1, 1, 2⟩, false) ∧
    (2 * (⟨[[⟨0, 0, 5⟩]], 1, 1, 1, 1, 1⟩ : HashMap Nat Nat).capacity ≤
        (⟨[[⟨0, 0, 5⟩], [⟨1, 1, 9⟩]], 2, 2, 1, 1, 2⟩ : HashMap Nat Nat).capacity ∧
      lookup (fun k => k)
        (⟨[[⟨0, 0, 5⟩], [⟨1, 1, 9⟩]], 2, 2, 1, 1, 2⟩ : HashMap Nat Nat) 1 = some 9 ∧
      (∀ k', k' ≠ 1 →
        lookup (fun k => k)
            (⟨[[⟨0, 0, 5⟩], [⟨1, 1, 9⟩]], 2, 2, 1, 1, 2⟩ : HashMap Nat Nat) k' =
          lookup (fun k => k) (⟨[[⟨0, 0, 5⟩]], 1, 1, 1, 1, 1⟩ : HashMap Nat Nat) k') ∧
      (⟨[[⟨0, 0, 5⟩], [⟨1, 1, 9⟩]], 2, 2, 1, 1, 2⟩ : HashMap Nat Nat).count =
        (⟨[[⟨0, 0, 5⟩]], 1, 1, 1, 1, 1⟩ : HashMap Nat Nat).count + 1) :=
  ⟨⟨by decide, by decide, by decide, by decide, by decide, by decide, by decide,
      by decide⟩, by decide, by decide, by decide,
    claim2_growth_preserves (fun k => k) 1 _ 1 9 _ false
      ⟨by decide, by decide, by decide, by decide, by decide, by decide, by decide,
        by decide⟩ (by decide) (by decide) (by decide)⟩

/-- Witness for C3: a run with two inserts, an overwrite, a removal, a
clear and a final insert, starting from capacity 4 and load factor 3/4. -/
theorem claim3_witness :
    0 < (4 : Nat) ∧ 0 < (4 : Nat) ∧
    runOps (fun k => k) 1 (init 4 3 4 : HashMap Nat Nat)
      [Op.place 1 10, Op.place 2 20, Op.place 1 11, Op.remove 2, Op.clear,
        Op.place 3 30] =
      some ⟨[[], [], [], [⟨3, 3, 30⟩]], 4, 1, 3, 4, 3⟩ ∧
    ((⟨[[], [], [], [⟨3, 3, 30⟩]], 4, 1, 3, 4, 3⟩ : HashMap Nat Nat).count =
        (specKeys [] [Op.place 1 10, Op.place 2 20, Op.place (K := Nat) (V := Nat) 1 11,
          Op.remove 2, Op.clear, Op.place 3 30]).length ∧
      (∀ k, (lookup (fun k => k)
          (⟨[[], [], [], [⟨3, 3, 30⟩]], 4, 1, 3, 4, 3⟩ : HashMap Nat Nat) k).isSome ↔
        k ∈ specKeys [] [Op.place 1 10, Op.place 2 20, Op.place (K := Nat) (V := Nat) 1 11,
          Op.remove 2, Op.clear, Op.place 3 30]) ∧
      ((⟨[[], [], [], [⟨3, 3, 30⟩]], 4, 1, 3, 4, 3⟩ : HashMap Nat Nat).buckets.flatten.map
        Entry.key).Nodup) :=
  ⟨by decide, by decide, by decide,
    claim3_count_invariant (fun k => k) 1 4 3 4 (by decide) (by decide)
      [Op.place 1 10, Op.place 2 20, Op.place 1 11, Op.remove 2, Op.clear,
        Op.place 3 30] _ (by decide)⟩

/-- Witness for C4 on a one-entry table: key 0 is present with value 5 and
key 3 is absent. -/
theorem claim4_witness :
    WF (fun k => k) (⟨[[⟨0, 0, 5⟩]], 1, 1, 1, 1, 1⟩ : HashMap Nat Nat) ∧
    ((∀ w, lookup (fun k => k) (⟨[[⟨0, 0, 5⟩]], 1, 1, 1, 1, 1⟩ : HashMap Nat Nat) 0 =
        some w →
      getOrInsert (fun k => k) 1 (⟨[[⟨0, 0, 5⟩]], 1, 1, 1, 1, 1⟩ : HashMap Nat Nat) 0 =
        some (⟨[[⟨0, 0, 5⟩]], 1, 1, 1, 1, 1⟩, w)) ∧
    (lookup (fun k => k) (⟨[[⟨0, 0, 5⟩]], 1, 1, 1, 1, 1⟩ : HashMap Nat Nat) 0 = none →
      ∀ m1 b, place (fun k => k) 1 (⟨[[⟨0, 0, 5⟩]], 1, 1, 1, 1, 1⟩ : HashMap Nat Nat) 0
          (default : Nat) = some (m1, b) →
        getOrInsert (fun k => k) 1 (⟨[[⟨0, 0, 5⟩]], 1, 1, 1, 1, 1⟩ : HashMap Nat Nat) 0 =
          some (m1, (default : Nat)) ∧
        lookup (fun k => k) m1 0 = some (default : Nat) ∧
        m1.count = (⟨[[⟨0, 0, 5⟩]], 1, 1, 1, 1, 1⟩ : HashMap Nat Nat).count + 1 ∧
        WF (fun k => k) m1)) :=
  ⟨⟨by decide, by decide, by decide, by decide, by decide, by decide, by decide,
      by decide⟩,
    claim4_get_or_insert (fun k => k) 1 _ 0
      ⟨by decide, by decide, by decide, by decide, by decide, by decide, by decide,
        by decide⟩⟩

/-- Witness for C5 on the same one-entry table, removing present key 0. -/
theorem claim5_witness :
    WF (fun k => k) (⟨[[⟨0, 0, 5⟩]], 1, 1, 1, 1, 1⟩ : HashMap Nat Nat) ∧
    ((lookup (fun k => k) (⟨[[⟨0, 0, 5⟩]], 1, 1, 1, 1, 1⟩ : HashMap Nat Nat) 0 = none →
      remove (fun k => k) (⟨[[⟨0, 0, 5⟩]], 1, 1, 1, 1, 1⟩ : HashMap Nat Nat) 0 =
        (⟨[[⟨0, 0, 5⟩]], 1, 1, 1, 1, 1⟩, false)) ∧
    (∀ w, lookup (fun k => k) (⟨[[⟨0, 0, 5⟩]], 1, 1, 1, 1, 1⟩ : HashMap Nat Nat) 0 =
        some w →
      (remove (fun k => k) (⟨[[⟨0, 0, 5⟩]], 1, 1, 1, 1, 1⟩ : HashMap Nat Nat) 0).2 =
        true ∧
      (remove (fun k => k) (⟨[[⟨0, 0, 5⟩]], 1, 1, 1, 1, 1⟩ :
        HashMap Nat Nat) 0).1.count + 1 =
        (⟨[[⟨0, 0, 5⟩]], 1, 1, 1, 1, 1⟩ : HashMap Nat Nat).count ∧
      lookup (fun k => k)
        (remove (fun k => k) (⟨[[⟨0, 0, 5⟩]], 1, 1, 1, 1, 1⟩ : HashMap Nat Nat) 0).1 0 =
        none ∧
      (∀ k', k' ≠ 0 →
        lookup (fun k => k)
            (remove (fun k => k) (⟨[[⟨0, 0, 5⟩]], 1, 1, 1, 1, 1⟩ :
              HashMap Nat Nat) 0).1 k' =
          lookup (fun k => k) (⟨[[⟨0, 0, 5⟩]], 1, 1, 1, 1, 1⟩ : HashMap Nat Nat) k') ∧
      (remove (fun k => k) (⟨[[⟨0, 0, 5⟩]], 1, 1, 1, 1, 1⟩ :
        HashMap Nat Nat) 0).1.capacity =
        (⟨[[⟨0, 0, 5⟩]], 1, 1, 1, 1, 1⟩ : HashMap Nat Nat).capacity ∧
      (remove (fun k => k) (⟨[[⟨0, 0, 5⟩]], 1, 1, 1, 1, 1⟩ :
        HashMap Nat Nat) 0).1.maxCount =
        (⟨[[⟨0, 0, 5⟩]], 1, 1, 1, 1, 1⟩ : HashMap Nat Nat).maxCount ∧
      WF (fun k => k)
        (remove (fun k => k) (⟨[[⟨0, 0, 5⟩]], 1, 1, 1, 1, 1⟩ : HashMap Nat Nat) 0).1)) :=
  ⟨⟨by decide, by decide, by decide, by decide, by decide, by decide, by decide,
      by decide⟩,
    claim5_remove_correct (fun k => k) _ 0
      ⟨by decide, by decide, by decide, by decide, by decide, by decide, by decide,
        by decide⟩⟩

/-- Witness for the amended C6: the full one-entry table with threshold 1
grows exactly once (capacity 1 to 2) on inserting fresh key 1. -/
theorem claim6_witness :
    WF (fun k => k) (⟨[[⟨0, 0, 5⟩]], 1, 1, 1, 1, 1⟩ : HashMap Nat Nat) ∧
    lookup (fun k => k) (⟨[[⟨0, 0, 5⟩]], 1, 1, 1, 1, 1⟩ : HashMap Nat Nat) 1 = none ∧
    (⟨[[⟨0, 0, 5⟩]], 1, 1, 1, 1, 1⟩ : HashMap Nat Nat).count =
      (⟨[[⟨0, 0, 5⟩]], 1, 1, 1, 1, 1⟩ : HashMap Nat Nat).maxCount ∧
    1 ≤ (⟨[[⟨0, 0, 5⟩]], 1, 1, 1, 1, 1⟩ : HashMap Nat Nat).maxCount ∧
    (∃ m', place (fun k => k) (0 + 1)
        (⟨[[⟨0, 0, 5⟩]], 1, 1, 1, 1, 1⟩ : HashMap Nat Nat) 1 9 = some (m', false) ∧
      m'.capacity = 2 * (⟨[[⟨0, 0, 5⟩]], 1, 1, 1, 1, 1⟩ : HashMap Nat Nat).capacity ∧
      m'.count = (⟨[[⟨0, 0, 5⟩]], 1, 1, 1, 1, 1⟩ : HashMap Nat Nat).count + 1 ∧
      m'.count ≤ m'.maxCount) :=
  ⟨⟨by decide, by decide, by decide, by decide, by decide, by decide, by decide,
      by decide⟩, by decide, by decide, by decide,
    claim6_growth_once_amended (fun k => k) 0 _ 1 9
      ⟨by decide, by decide, by decide, by decide, by decide, by decide, by decide,
        by decide⟩ (by decide) (by decide) (by decide)⟩

/-- Witness for C7 on a two-entry table of capacity 2. -/
theorem claim7_witness :
    WF (fun k => k) (⟨[[⟨0, 0, 5⟩], [⟨1, 1, 9⟩]], 2, 2, 1, 1, 2⟩ : HashMap Nat Nat) ∧
    (⟨[[⟨0, 0, 5⟩], [⟨1, 1, 9⟩]], 2, 2, 1, 1, 2⟩ : HashMap Nat Nat).count ≤ 2 ∧
    (iterVisit
        (⟨[[⟨0, 0, 5⟩], [⟨1, 1, 9⟩]], 2, 2, 1, 1, 2⟩ : HashMap Nat Nat).buckets 2 2
        (iterBegin
          (⟨[[⟨0, 0, 5⟩], [⟨1, 1, 9⟩]], 2, 2, 1, 1, 2⟩ : HashMap Nat Nat).buckets 2) =
      (⟨[[⟨0, 0, 5⟩], [⟨1, 1, 9⟩]], 2, 2, 1, 1, 2⟩ :
        HashMap Nat Nat).buckets.flatten ∧
    (iterVisit
        (⟨[[⟨0, 0, 5⟩], [⟨1, 1, 9⟩]], 2, 2, 1, 1, 2⟩ : HashMap Nat Nat).buckets 2 2
        (iterBegin
          (⟨[[⟨0, 0, 5⟩], [⟨1, 1, 9⟩]], 2, 2, 1, 1, 2⟩ :
            HashMap Nat Nat).buckets 2)).length =
      (⟨[[⟨0, 0, 5⟩], [⟨1, 1, 9⟩]], 2, 2, 1, 1, 2⟩ : HashMap Nat Nat).count ∧
    ((iterVisit
        (⟨[[⟨0, 0, 5⟩], [⟨1, 1, 9⟩]], 2, 2, 1, 1, 2⟩ : HashMap Nat Nat).buckets 2 2
        (iterBegin
          (⟨[[⟨0, 0, 5⟩], [⟨1, 1, 9⟩]], 2, 2, 1, 1, 2⟩ :
            HashMap Nat Nat).buckets 2)).map Entry.key).Nodup) :=
  ⟨⟨by decide, by decide, by decide, by decide, by decide, by decide, by decide,
      by decide⟩, by decide,
    claim7_iteration_complete (fun k => k) 2 _
      ⟨by decide, by decide, by decide, by decide, by decide, by decide, by decide,
        by decide⟩ (by decide)⟩

/-- Witness for C8: place key 5 with value 7, then with value 8, on a
fresh table of capacity 2. -/
theorem claim8_witness :
    WF (fun k => k) (init 2 3 4 : HashMap Nat Nat) ∧
    place (fun k => k) 1 (init 2 3 4 : HashMap Nat Nat) 5 7 =
      some (⟨[[], [⟨5, 5, 7⟩]], 2, 1, 3, 4, 1⟩, false) ∧
    (∃ m2, place (fun k => k) 0
        (⟨[[], [⟨5, 5, 7⟩]], 2, 1, 3, 4, 1⟩ : HashMap Nat Nat) 5 8 =
        some (m2, true) ∧
      lookup (fun k => k) m2 5 = some 8 ∧
      m2.count = (⟨[[], [⟨5, 5, 7⟩]], 2, 1, 3, 4, 1⟩ : HashMap Nat Nat).count ∧
      (false = false →
        (⟨[[], [⟨5, 5, 7⟩]], 2, 1, 3, 4, 1⟩ : HashMap Nat Nat).count =
          (init 2 3 4 : HashMap Nat Nat).count + 1) ∧
      (false = true →
        (⟨[[], [⟨5, 5, 7⟩]], 2, 1, 3, 4, 1⟩ : HashMap Nat Nat).count =
          (init 2 3 4 : HashMap Nat Nat).count)) :=
  ⟨wf_init (fun k => k) 2 3 4 (by decide) (by decide), by decide,
    claim8_overwrite (fun k => k) 1 0 (init 2 3 4) 5 7 8 _ false
      (wf_init (fun k => k) 2 3 4 (by decide) (by decide)) (by decide)⟩

/-- Witness for C9: clearing the two-entry table of capacity 2. -/
theorem claim9_witness :
    WF (fun k => k) (⟨[[⟨0, 0, 5⟩], [⟨1, 1, 9⟩]], 2, 2, 1, 1, 2⟩ : HashMap Nat Nat) ∧
    (clear (⟨[[⟨0, 0, 5⟩], [⟨1, 1, 9⟩]], 2, 2, 1, 1, 2⟩ : HashMap Nat Nat) =
      (init 2 1 1 : HashMap Nat Nat) ∧
    (clear (⟨[[⟨0, 0, 5⟩], [⟨1, 1, 9⟩]], 2, 2, 1, 1, 2⟩ : HashMap Nat Nat)).count = 0 ∧
    (clear (⟨[[⟨0, 0, 5⟩], [⟨1, 1, 9⟩]], 2, 2, 1, 1, 2⟩ :
      HashMap Nat Nat)).capacity =
      (⟨[[⟨0, 0, 5⟩], [⟨1, 1, 9⟩]], 2, 2, 1, 1, 2⟩ : HashMap Nat Nat).capacity ∧
    (clear (⟨[[⟨0, 0, 5⟩], [⟨1, 1, 9⟩]], 2, 2, 1, 1, 2⟩ :
      HashMap Nat Nat)).maxCount =
      (⟨[[⟨0, 0, 5⟩], [⟨1, 1, 9⟩]], 2, 2, 1, 1, 2⟩ : HashMap Nat Nat).maxCount ∧
    (∀ k, lookup (fun k => k)
      (clear (⟨[[⟨0, 0, 5⟩], [⟨1, 1, 9⟩]], 2, 2, 1, 1, 2⟩ : HashMap Nat Nat)) k =
        none) ∧
    (∀ fuel, iterVisit
        (clear (⟨[[⟨0, 0, 5⟩], [⟨1, 1, 9⟩]], 2, 2, 1, 1, 2⟩ :
          HashMap Nat Nat)).buckets
        (clear (⟨[[⟨0, 0, 5⟩], [⟨1, 1, 9⟩]], 2, 2, 1, 1, 2⟩ :
          HashMap Nat Nat)).capacity fuel
        (iterBegin
          (clear (⟨[[⟨0, 0, 5⟩], [⟨1, 1, 9⟩]], 2, 2, 1, 1, 2⟩ :
            HashMap Nat Nat)).buckets
          (clear (⟨[[⟨0, 0, 5⟩], [⟨1, 1, 9⟩]], 2, 2, 1, 1, 2⟩ :
            HashMap Nat Nat)).capacity) = [])) :=
  ⟨⟨by decide, by decide, by decide, by decide, by decide, by decide, by decide,
      by decide⟩,
    claim9_clear_resets (fun k => k) _
      ⟨by decide, by decide, by decide, by decide, by decide, by decide, by decide,
        by decide⟩⟩

/-- Witness for C10 on a three-bucket array with entries in buckets 0 and
2: the null cursor has no successor, a mid-chain advance steps along the
chain, an end-of-chain advance scans to bucket 2, and scanning past every
bucket lands at an index at least `capacity`. -/
theorem claim10_witness :
    iterNext ([[⟨1, 1, 2⟩], [], [⟨5, 5, 6⟩]] : List (List (Entry Nat Nat))) 3
      (0, []) = none ∧
    iterNext ([[⟨1, 1, 2⟩], [], [⟨5, 5, 6⟩]] : List (List (Entry Nat Nat))) 3
      (0, [⟨1, 1, 2⟩, ⟨9, 9, 9⟩]) = some (0, [⟨9, 9, 9⟩]) ∧
    iterNext ([[⟨1, 1, 2⟩], [], [⟨5, 5, 6⟩]] : List (List (Entry Nat Nat))) 3
      (0, [⟨1, 1, 2⟩]) =
      some (scanFrom ([[⟨1, 1, 2⟩], [], [⟨5, 5, 6⟩]] : List (List (Entry Nat Nat))) 3 1) ∧
    1 ≤ (scanFrom ([[⟨1, 1, 2⟩], [], [⟨5, 5, 6⟩]] :
      List (List (Entry Nat Nat))) 3 1).1 ∧
    (scanFrom ([[⟨1, 1, 2⟩], [], [⟨5, 5, 6⟩]] :
      List (List (Entry Nat Nat))) 3 1).1 < 3 ∧
    3 ≤ (scanFrom ([[⟨1, 1, 2⟩], [], [⟨5, 5, 6⟩]] :
      List (List (Entry Nat Nat))) 3 3).1 :=
  ⟨(claim10_advance_defined ([[⟨1, 1, 2⟩], [], [⟨5, 5, 6⟩]] :
      List (List (Entry Nat Nat))) 3 0).1,
    (claim10_advance_defined ([[⟨1, 1, 2⟩], [], [⟨5, 5, 6⟩]] :
      List (List (Entry Nat Nat))) 3 0).2.1 ⟨1, 1, 2⟩ [⟨9, 9, 9⟩] (by decide),
    (claim10_advance_defined ([[⟨1, 1, 2⟩], [], [⟨5, 5, 6⟩]] :
      List (List (Entry Nat Nat))) 3 0).2.2.1 ⟨1, 1, 2⟩,
    ((claim10_advance_defined ([[⟨1, 1, 2⟩], [], [⟨5, 5, 6⟩]] :
      List (List (Entry Nat Nat))) 3 0).2.2.2.1 1 (by decide)).1,
    ((claim10_advance_defined ([[⟨1, 1, 2⟩], [], [⟨5, 5, 6⟩]] :
      List (List (Entry Nat Nat))) 3 0).2.2.2.1 1 (by decide)).2.1,
    (claim10_advance_defined ([[⟨1, 1, 2⟩], [], [⟨5, 5, 6⟩]] :
      List (List (Entry Nat Nat))) 3 0).2.2.2.2 3 (by decide)⟩

end HashTut

